import Mathlib

/-!
Shallow embedding of the onnxscript autocast module (`onnxscript/autocast.py`)
and of the parts of the converter (`onnxscript/converter.py`) needed to settle
the specification claims, together with theorems settling each claim.

Machine integers do not overflow in the modelled code paths (they are Python
ints), so integers are modelled as `Int`/`Nat`.  Fallible code is modelled in
`Except Err`.
-/

namespace OnnxScript

/-- Error taxonomy of the modelled code.  Python exceptions are collapsed to
their role: `arity` is the ValueError raised when actual parameters exceed the
formals, `indexErr` models Python's IndexError from `expected_inputs[-1]` on an
empty list, `typeMismatch` and `emptyList` are the two list-promotion
ValueErrors, `unsupportedType` is the ValueError/TypeError for an unsupported
python type, `npConversion` models a numpy conversion failure, `fuel` marks
exhaustion of the explicit fuel used to model an unbounded `while` loop. -/
inductive Err where
  | arity
  | indexErr
  | typeMismatch
  | emptyList
  | unsupportedType
  | npConversion
  | unboundName
  | emptyOutputs
  | inOutCollision
  | fuel
  | runtimeErr
  | other
  deriving DecidableEq, Repr

/-- Numpy dtypes appearing in the modelled code (`np.bool_`, `np.int64`,
`np.float32`). -/
inductive NpDtype where
  | bool_
  | int64
  | float32
  deriving DecidableEq, Repr

/-- ONNX TensorProto element types appearing in `_py_type_to_onnx_type`. -/
inductive OnnxElt where
  | BOOL
  | INT64
  | FLOAT
  | STRING
  deriving DecidableEq, Repr

/-- Python runtime types (`type(x)`) for the value domain handled by the
autocast module.  `noneType` is Python's NoneType, `tensorT` is
`onnxscript.tensor.Tensor`, `ndarrayT` is `np.ndarray`. -/
inductive PyType where
  | boolT
  | intT
  | floatT
  | strT
  | listT
  | noneType
  | tensorT
  | ndarrayT
  deriving DecidableEq, Repr

/-- Python values in the domain handled by the autocast module.  Float payloads
are modelled as `Rat` (only the written literal matters to the modelled code,
never float arithmetic).  `tensor` is an `onnxscript.tensor.Tensor` carrying
its numpy dtype and shape; `ndarray` is a raw `np.ndarray`. -/
inductive PyValue where
  | bool (b : Bool)
  | int (i : Int)
  | float (f : Rat)
  | str (s : String)
  | list (xs : List PyValue)
  | pynone
  | tensor (dtype : NpDtype) (shape : List Nat)
  | ndarray (dtype : NpDtype) (shape : List Nat)

/-- Python `type(x)` on the modelled value domain. -/
def PyValue.ptype : PyValue → PyType
  | .bool _ => .boolT
  | .int _ => .intT
  | .float _ => .floatT
  | .str _ => .strT
  | .list _ => .listT
  | .pynone => .noneType
  | .tensor _ _ => .tensorT
  | .ndarray _ _ => .ndarrayT

/-- Python `isinstance(x, t)` on the modelled domain.  `bool` is a subclass of
`int` in Python, so a bool is an instance of `int` as well. -/
def isinst (x : PyValue) (t : PyType) : Bool :=
  match x, t with
  | .bool _, .boolT => true
  | .bool _, .intT => true
  | .int _, .intT => true
  | .float _, .floatT => true
  | .str _, .strT => true
  | .list _, .listT => true
  | .pynone, .noneType => true
  | .tensor _ _, .tensorT => true
  | .ndarray _ _, .ndarrayT => true
  | _, _ => false

/-- Embedding of `_py_type_to_onnx_type`: maps a python type to a TensorProto
element type, raising ValueError (`unsupportedType`) otherwise. -/
def _py_type_to_onnx_type : PyType → Except Err OnnxElt
  | .boolT => .ok .BOOL
  | .intT => .ok .INT64
  | .floatT => .ok .FLOAT
  | .strT => .ok .STRING
  | _ => .error .unsupportedType

/-- ONNX TensorProto as produced by `helper.make_tensor` /
`numpy_helper.from_array`: a name, an element type, dims, and raw values. -/
structure OnnxTensor where
  name : String
  elt_type : OnnxElt
  dims : List Nat
  vals : List PyValue

/-- Modelled from numpy semantics: the TensorProto element type
`numpy_helper.from_array` assigns to an ndarray of the given dtype. -/
def onnx_elt_of_dtype : NpDtype → OnnxElt
  | .bool_ => .BOOL
  | .int64 => .INT64
  | .float32 => .FLOAT

/-- Embedding of `pyvalue_to_onnx_tensor`: converts a python value to a
TensorProto.  Empty lists raise (`emptyList`), lists whose elements are not all
instances of the first element's type raise (`typeMismatch`), scalars of
unsupported type raise (`unsupportedType`). -/
def pyvalue_to_onnx_tensor (tensor_name : String) (pyvalue : PyValue) :
    Except Err OnnxTensor :=
  match pyvalue with
  | .ndarray d shape => .ok ⟨tensor_name, onnx_elt_of_dtype d, shape, []⟩
  | .list xs =>
    match xs with
    | [] => .error .emptyList
    | x :: _ =>
      let pytype := x.ptype
      if xs.all (fun e => isinst e pytype) then do
        let t ← _py_type_to_onnx_type pytype
        .ok ⟨tensor_name, t, [xs.length], xs⟩
      else .error .typeMismatch
  | v => do
    let onnx_type ← _py_type_to_onnx_type v.ptype
    if onnx_type = .BOOL then
      match v with
      | .bool b => .ok ⟨tensor_name, onnx_type, [], [.int (if b then 1 else 0)]⟩
      | _ => .ok ⟨tensor_name, onnx_type, [], [v]⟩
    else
      .ok ⟨tensor_name, onnx_type, [], [v]⟩

/-- Embedding of `_promotable`: whether a runtime parameter value needs to be
promoted into an onnxscript value.  True for bool/int/float and for a
non-empty list whose first element is promotable. -/
def _promotable : PyValue → Bool
  | .bool _ => true
  | .int _ => true
  | .float _ => true
  | .list (x :: _) => _promotable x
  | _ => false

/-- Embedding of `_get_dtype`: np.dtype used when converting a python value to
an onnxscript tensor.  The empty list raises ValueError (`emptyList`); values
of other types raise TypeError (`unsupportedType`). -/
def _get_dtype : PyValue → Except Err NpDtype
  | .bool _ => .ok .bool_
  | .int _ => .ok .int64
  | .float _ => .ok .float32
  | .list (x :: _) => _get_dtype x
  | .list [] => .error .emptyList
  | _ => .error .unsupportedType

/-- Modelled from numpy semantics: whether a python scalar converts to the
given numeric dtype under `np.array(-, dtype=-)`.  All of bool/int/float
convert to each of the numeric dtypes used here. -/
def np_scalar_ok : PyValue → NpDtype → Bool
  | .bool _, _ => true
  | .int _, _ => true
  | .float _, _ => true
  | _, _ => false

/-- Modelled from numpy semantics on the domain used here:
`np.array(pyvalue, dtype=dtype)` wrapped into `tensor.Tensor`.  A scalar gives
a rank-0 array, a flat list of convertible scalars gives a rank-1 array of its
length; anything else is a numpy conversion failure. -/
def np_array (pyvalue : PyValue) (dtype : NpDtype) : Except Err PyValue :=
  match pyvalue with
  | .list xs =>
    if xs.all (fun e => np_scalar_ok e dtype) then .ok (.tensor dtype [xs.length])
    else .error .npConversion
  | v =>
    if np_scalar_ok v dtype then .ok (.tensor dtype [])
    else .error .npConversion

/-- Embedding of `cast_pyvalue_to_os_tensor`: promotes python values into
onnxscript tensors; a non-promotable value is returned unchanged. -/
def cast_pyvalue_to_os_tensor (pyvalue : PyValue) (dtype : Option NpDtype) :
    Except Err PyValue :=
  if _promotable pyvalue then do
    let d ← match dtype with
      | Option.none => _get_dtype pyvalue
      | some d0 => pure d0
    np_array pyvalue d
  else .ok pyvalue

/-- Multiplicity of a formal parameter in an `OpSchema`
(`OpSchema.FormalParameterOption`). -/
inductive FormalParameterOption where
  | Single
  | Optional
  | Variadic
  deriving DecidableEq, Repr

/-- One formal parameter of an operator schema: its type string (either a bare
type-variable identifier such as "T", or a concrete type expression containing
a parenthesis such as "tensor(float)"), its multiplicity, and whether a
variadic parameter is homogeneous. -/
structure FormalParameter where
  type_str : String
  option : FormalParameterOption
  is_homogeneous : Bool
  deriving DecidableEq, Repr

/-- Operator schema restricted to what `cast_inputs` consumes: the ordered
formal-parameter list. -/
structure OpSchema where
  inputs : List FormalParameter
  deriving DecidableEq, Repr

/-- Python dict assignment `d[k] = v` on a string-keyed dict modelled as a
function to `Option`. -/
def bindInsert {τ : Type} (m : String → Option τ) (k : String) (v : τ) :
    String → Option τ :=
  fun k2 => if k2 = k then some v else m k2

/-- Formal-parameter selection for argument position `i` in the loop of
`cast_inputs`: the i-th formal when it exists; otherwise the trailing formal
is reused when it is variadic (`ok none` marks the non-homogeneous variadic
case, whose argument passes through untouched), ValueError (`arity`) is
raised when the trailing formal is not variadic, and Python's
`expected_inputs[-1]` on an empty formal list is IndexError (`indexErr`). -/
def select_expected (expected_inputs : List FormalParameter) (i : Nat) :
    Except Err (Option FormalParameter) :=
  if h : i < expected_inputs.length then .ok (some expected_inputs[i])
  else
    match expected_inputs.getLast? with
    | Option.none => .error .indexErr
    | some lastp =>
      if lastp.option = FormalParameterOption.Variadic then
        if lastp.is_homogeneous then .ok (some lastp) else .ok Option.none
      else .error .arity

/-- First pass of `cast_inputs` (the `for i, x in enumerate(args)` loop): walks
the actual arguments, selecting the formal for each position via
`select_expected`, binding each bare type variable to the type of the current
argument whenever the inspector knows it (a plain dict store, so a later
knowable argument overwrites).  It returns the final type-variable bindings
together with the `args_typevars` pair list; a non-homogeneous variadic
argument is paired with no type variable. -/
def cast_inputs_pass1 {α τ : Type} (get_type_info : α → Option τ)
    (expected_inputs : List FormalParameter) :
    List α → Nat → (String → Option τ) →
    Except Err ((String → Option τ) × List (α × Option String))
  | [], _, type_bindings => .ok (type_bindings, [])
  | x :: rest, i, type_bindings => do
    let expectedO ← select_expected expected_inputs i
    match expectedO with
    | Option.none => do
      let (tbF, pairs) ←
        cast_inputs_pass1 get_type_info expected_inputs rest (i + 1) type_bindings
      .ok (tbF, (x, (Option.none : Option String)) :: pairs)
    | some expected => do
      let typevar := expected.type_str
      let tb :=
        if typevar.data.contains '(' then type_bindings
        else
          match get_type_info x with
          | some typeinfo => bindInsert type_bindings typevar typeinfo
          | Option.none => type_bindings
      let (tbF, pairs) ← cast_inputs_pass1 get_type_info expected_inputs rest (i + 1) tb
      .ok (tbF, (x, some typevar) :: pairs)

/-- Embedding of `cast_inputs`: schema-driven limited auto-casting.  With no
schema every argument is cast with no binding.  Otherwise the first pass binds
type variables and collects `args_typevars`, and the second pass casts every
argument using its type variable's binding (`type_bindings.get(typevar)`). -/
def cast_inputs {α τ β : Type} (get_type_info : α → Option τ)
    (cast : α → Option τ → β) (op_schema : Option OpSchema) (args : List α) :
    Except Err (List β) :=
  match op_schema with
  | Option.none => .ok (args.map (fun x => cast x Option.none))
  | some schema => do
    let (type_bindings, args_typevars) ←
      cast_inputs_pass1 get_type_info schema.inputs args 0 (fun _ => Option.none)
    .ok (args_typevars.map (fun p => cast p.1 (p.2.bind type_bindings)))

/-- Type inspector of `dynamic_cast_inputs`: an onnxscript Tensor's dtype,
else unknown. -/
def dynamic_get_type_info : PyValue → Option NpDtype
  | .tensor d _ => some d
  | _ => Option.none

/-- Embedding of `dynamic_cast_inputs`: eager-mode autocast.  The cast function
is fallible, and as in Python the first raising cast (left to right) aborts. -/
def dynamic_cast_inputs (op_schema : Option OpSchema) (args : List PyValue) :
    Except Err (List PyValue) := do
  let r ← cast_inputs dynamic_get_type_info cast_pyvalue_to_os_tensor op_schema args
  r.mapM id

/-- Provenance tag of a dynamic (graph-valued) binding, from
`values.DynamicKind` as used by the converter. -/
inductive DynamicKind where
  | Input
  | Loop
  | Intermediate
  | Output
  deriving DecidableEq, Repr

mutual

/-- Attribute value of an IR statement: a literal, a tensor, an attribute
reference (promoted compile-time parameter), or a nested subgraph. -/
inductive AttrVal where
  | intA (i : Int)
  | intsA (l : List Int)
  | tensorA (t : OnnxTensor)
  | refA (attrname : String) (value : String)
  | graphA (g : IRFunction)

/-- One IR statement (graph node): ordered output names, operator name,
ordered input names, named attributes.  Modelled from the spec: the
graph-assembly backend's node representation (operator identity, ordered
inputs/outputs, named attributes that may hold nested subgraphs). -/
inductive IRStmt where
  | mk (outputs : List String) (op : String) (inputs : List String)
      (attrs : List (String × AttrVal))

/-- An in-progress function/subgraph being assembled.  Modelled from the spec:
the graph-assembly backend's subgraph with declared inputs, declared outputs
and the statement list. -/
inductive IRFunction where
  | mk (name : String) (inputs : List String) (outputs : List String)
      (stmts : List IRStmt)

end

/-- Output names of an IR statement. -/
def IRStmt.outputs : IRStmt → List String
  | .mk o _ _ _ => o

/-- Operator name of an IR statement. -/
def IRStmt.op : IRStmt → String
  | .mk _ o _ _ => o

/-- Input names of an IR statement. -/
def IRStmt.inputs : IRStmt → List String
  | .mk _ _ i _ => i

/-- Attributes of an IR statement. -/
def IRStmt.attrs : IRStmt → List (String × AttrVal)
  | .mk _ _ _ a => a

/-- Name of an IR function. -/
def IRFunction.name : IRFunction → String
  | .mk n _ _ _ => n

/-- Declared inputs of an IR function. -/
def IRFunction.inputs : IRFunction → List String
  | .mk _ i _ _ => i

/-- Declared outputs of an IR function. -/
def IRFunction.outputs : IRFunction → List String
  | .mk _ _ o _ => o

/-- Statements of an IR function. -/
def IRFunction.stmts : IRFunction → List IRStmt
  | .mk _ _ _ s => s

/-- Fresh empty function, as `ir_builder.new_function`. -/
def IRFunction.new (name : String) : IRFunction :=
  .mk name [] [] []

/-- Append a statement, as `ir_builder.add_stmt`. -/
def IRFunction.addStmt : IRFunction → IRStmt → IRFunction
  | .mk n i o st, stmt => .mk n i o (st ++ [stmt])

/-- Declare an input, as `ir_builder.add_input` (type information elided). -/
def IRFunction.addInput : IRFunction → String → IRFunction
  | .mk n i o st, x => .mk n (i ++ [x]) o st

/-- Declare an output, as `ir_builder.add_output` (type information elided). -/
def IRFunction.addOutput : IRFunction → String → IRFunction
  | .mk n i o st, x => .mk n i (o ++ [x]) st

/-- Modelled from the spec: `assigned_names` of an in-progress function is the
set of names assigned by its statements (the names "unique to that subgraph",
used to decide whether an output needs an explicit identity copy). -/
def IRFunction.assigned_names (f : IRFunction) : List String :=
  (f.stmts.map IRStmt.outputs).flatten

/-- Compile-time binding of a python name, from `values` as used by the
converter: a dynamic graph value with provenance, an attribute-parameter
reference (with the Constant attribute name to promote it under, when its
annotated type supports promotion), a raw python constant, or a nested
function. -/
inductive BindingVal where
  | dynamic (value : String) (kind : DynamicKind)
  | attrRef (value : String) (attrname : Option String)
  | pyconst (v : PyValue)
  | funcVal (f : IRFunction)

/-- Converter state owned by one function translation: the stack of enclosing
in-progress functions, the current function, the unique-name counter and
used-name set, the scope stack of local bindings (innermost first), and the
module-level globals. -/
structure ConvState where
  outer : List IRFunction
  current_fn : IRFunction
  nextvar : Nat
  used_vars : List String
  locals : List (List (String × BindingVal))
  globals : List (String × BindingVal)

/-- While-loop of `generate_unique_name`, with explicit fuel: as long as the
candidate is in the used set, retry with `candidate_<nextvar>` and bump the
counter. -/
def generate_unique_name_loop (used_vars : List String) (candidate : String) :
    Nat → String → Nat → Option (String × Nat)
  | 0, _, _ => Option.none
  | fuel + 1, r, nextvar =>
    if r ∈ used_vars then
      generate_unique_name_loop used_vars candidate fuel
        (candidate ++ "_" ++ Nat.repr nextvar) (nextvar + 1)
    else some (r, nextvar)

/-- Embedding of `Converter.generate_unique_name`: finds a name not in the
used set, records it as used, and returns it.  The source's unbounded `while`
is modelled with fuel; its exhaustion is the distinguished error `fuel`
(unreachable in the source, where the counter eventually escapes the finite
used set). -/
def generate_unique_name (candidate : String) (s : ConvState) :
    Except Err (String × ConvState) :=
  match generate_unique_name_loop s.used_vars candidate
      (s.used_vars.length + 2) candidate s.nextvar with
  | some (r, nv) =>
    .ok (r, { s with nextvar := nv, used_vars := r :: s.used_vars })
  | Option.none => .error .fuel

/-- Append a node to the current function, as `Converter.emit` (the callee's
opset is elided; only the operator name is kept). -/
def ConvState.emit (s : ConvState) (outputs : List String) (op : String)
    (inputs : List String) (attrs : List (String × AttrVal)) : ConvState :=
  { s with current_fn := s.current_fn.addStmt (.mk outputs op inputs attrs) }

/-- Declare an output of the current function. -/
def ConvState.add_output (s : ConvState) (x : String) : ConvState :=
  { s with current_fn := s.current_fn.addOutput x }

/-- Declare an input of the current function. -/
def ConvState.add_input (s : ConvState) (x : String) : ConvState :=
  { s with current_fn := s.current_fn.addInput x }

/-- Bind a name in the innermost scope, as `Converter.bind`. -/
def ConvState.bindVar (s : ConvState) (name : String) (val : BindingVal) :
    ConvState :=
  { s with
    locals :=
      match s.locals with
      | sc :: rest => ((name, val) :: sc) :: rest
      | [] => [[(name, val)]] }

/-- Lookup in one scope (python dict lookup; the most recent binding wins). -/
def scopeLookup (sc : List (String × BindingVal)) (name : String) :
    Option BindingVal :=
  (sc.find? (fun p => p.1 = name)).map (fun p => p.2)

/-- Lookup across the scope stack only (no globals), innermost first. -/
def localsLookup : List (List (String × BindingVal)) → String → Option BindingVal
  | [], _ => Option.none
  | sc :: rest, name =>
    match scopeLookup sc name with
    | some v => some v
    | Option.none => localsLookup rest name

/-- Embedding of `Converter.lookup`: walk the scope stack outward, then the
globals. -/
def ConvState.lookup (s : ConvState) (name : String) : Option BindingVal :=
  match localsLookup s.locals name with
  | some v => some v
  | Option.none => scopeLookup s.globals name

/-- Embedding of `Converter.enter_scope`: push the current function and a
fresh scope frame, and start a nested function. -/
def enter_scope (name : String) (s : ConvState) : ConvState :=
  { s with
    outer := s.current_fn :: s.outer,
    current_fn := IRFunction.new name,
    locals := [] :: s.locals }

/-- Embedding of `Converter.exit_scope`: pop the scope frame and return the
finished nested function.  Popping an empty stack is Python's IndexError. -/
def exit_scope (s : ConvState) : Except Err (IRFunction × ConvState) :=
  match s.outer with
  | f :: rest =>
    .ok (s.current_fn,
      { s with current_fn := f, outer := rest, locals := s.locals.tail })
  | [] => .error .indexErr

/-- Embedding of `Converter.emit_copy`: a fresh name assigned by an Identity
node. -/
def emit_copy (original_var : String) (suggested_name : String) (s : ConvState) :
    Except Err (String × ConvState) := do
  let (new_var, s) ← generate_unique_name suggested_name s
  .ok (new_var, s.emit [new_var] "Identity" [original_var] [])

/-- Default name suggestion of `Converter.emit_const` when the caller supplies
none: descriptive names for int scalars and one-element int lists, else
"const". -/
def emit_const_suggested (pyvalue : PyValue) (suggested_name : Option String) :
    String :=
  match suggested_name with
  | some n => n
  | Option.none =>
    match pyvalue with
    | .int i =>
      if 0 ≤ i then "int64_" ++ Nat.repr i.toNat
      else "int64_m" ++ Nat.repr (-i).toNat
    | .list [.int i] =>
      if 0 ≤ i then "int64_" ++ Nat.repr i.toNat ++ "_1d"
      else "int64_m" ++ Nat.repr (-i).toNat ++ "_1d"
    | _ => "const"

/-- Embedding of `Converter.emit_const`: a fresh name assigned by a Constant
node holding the TensorProto conversion of a python value (which can raise). -/
def emit_const (pyvalue : PyValue) (suggested_name : Option String)
    (s : ConvState) : Except Err (String × ConvState) := do
  let (ovar, s) ← generate_unique_name
    (emit_const_suggested pyvalue suggested_name) s
  let t ← pyvalue_to_onnx_tensor ovar pyvalue
  .ok (ovar, s.emit [ovar] "Constant" [] [("value", .tensorA t)])

/-- Embedding of `Converter.to_onnx_var`: an attribute reference is promoted
to a Constant node with a fresh name (failing when its type has no Constant
attribute slot), a dynamic value yields its name, and a raw python constant is
emitted via `emit_const`; a nested-function binding is not convertible. -/
def to_onnx_var (val : BindingVal) (target : Option String) (s : ConvState) :
    Except Err (String × ConvState) :=
  match val with
  | .attrRef value attrname => do
    match attrname with
    | Option.none => .error .unsupportedType
    | some an => do
      let (result, s) ← generate_unique_name (target.getD "tmp") s
      .ok (result, s.emit [result] "Constant" [] [(an, .refA an value)])
  | .dynamic v _ => .ok (v, s)
  | .pyconst v => emit_const v (some (target.getD "tmp")) s
  | .funcVal _ => .error .unsupportedType

/-- Embedding of `Converter.py_var_to_onnx_var`: look a python name up and
convert the binding to a value name. -/
def py_var_to_onnx_var (py_var : String) (s : ConvState) :
    Except Err (String × ConvState) :=
  match s.lookup py_var with
  | Option.none => .error .unboundName
  | some val => to_onnx_var val (some py_var) s

/-- Per-name output reconciliation of `translate_block` (the `for pvar in
live_defs` loop body): a name bound in the branch scope is declared as an
output (with an identity copy when its value is not a name assigned inside
this subgraph); a name only bound in an enclosing scope is passed through via
a freshly named identity copy; an unbound name is a translation failure. -/
def block_output_for (pvar : String) (s : ConvState) : Except Err ConvState :=
  match s.locals with
  | [] => .error .other
  | current :: _ =>
    match scopeLookup current pvar with
    | some pv_val => do
      let (output, s) ← to_onnx_var pv_val (some pvar) s
      if output ∈ s.current_fn.assigned_names then
        .ok (s.add_output output)
      else do
        let (output2, s) ← emit_copy output pvar s
        .ok (s.add_output output2)
    | Option.none =>
      match localsLookup s.locals pvar with
      | Option.none => .error .unboundName
      | some pv_val => do
        let (ovar, s) ← generate_unique_name pvar s
        let (src, s) ← to_onnx_var pv_val (some pvar) s
        let s := s.emit [ovar] "Identity" [src] []
        .ok (s.add_output ovar)

/-- Reconcile every live-out name of a block, in order. -/
def processLiveDefs : List String → ConvState → Except Err ConvState
  | [], s => .ok s
  | pvar :: rest, s => do
    let s ← block_output_for pvar s
    processLiveDefs rest s

/-- Embedding of `Converter.translate_block`: enter a nested scope, run the
block body (given as an abstract state transformer standing for
`for s in stmts: translate_stmt(s)`), declare one output per live-out name in
the given order, and return the finished subgraph. -/
def translate_block (bodyEffect : ConvState → Except Err ConvState)
    (name : String) (live_defs : List String) (s : ConvState) :
    Except Err (IRFunction × ConvState) := do
  let s := enter_scope name s
  let s ← bodyEffect s
  let s ← processLiveDefs live_defs s
  exit_scope s

/-- Fresh renaming used by `translate_if_stmt` and `emit_loop`: generate a
unique name for each given python name and rebind the python name to it. -/
def renameAll (kind : DynamicKind) :
    List String → ConvState → Except Err (List String × ConvState)
  | [], s => .ok ([], s)
  | x :: rest, s => do
    let (r, s) ← generate_unique_name x s
    let s := s.bindVar x (.dynamic r kind)
    let (rs, s) ← renameAll kind rest s
    .ok (r :: rs, s)

/-- Embedding of `Converter.translate_if_stmt`: translate the test in the
enclosing scope, translate both branches as blocks over the same live-out
list, freshly rename every live-out name, and emit one If node whose branch
subgraphs are attributes.  An empty reconciled output list and an output list
equal to `[test]` are failures. -/
def translate_if_stmt (live_defs : List String)
    (translateTest : ConvState → Except Err (String × ConvState))
    (thenBody elseBody : ConvState → Except Err ConvState) (s : ConvState) :
    Except Err ConvState := do
  let (test, s) ← translateTest s
  let (thenGraph, s) ← translate_block thenBody "thenGraph" live_defs s
  let (elseGraph, s) ← translate_block elseBody "elseGraph" live_defs s
  let (renamed, s) ← renameAll .Intermediate live_defs s
  if renamed = [] then .error .emptyOutputs
  else if renamed = [test] then .error .inOutCollision
  else
    .ok (s.emit renamed "If" [test]
      [("then_branch", .graphA thenGraph), ("else_branch", .graphA elseGraph)])

/-- Embedding of `Converter.emit_loop`: freshly rename the loop-carried
results, bind them into the enclosing scope, and emit the control node. -/
def emit_loop (outputs : List String) (callee : String) (inputs : List String)
    (attrs : List (String × AttrVal)) (s : ConvState) : Except Err ConvState := do
  let (onnx_outputs, s) ← renameAll .Output outputs s
  .ok (s.emit onnx_outputs callee inputs attrs)

/-- Declare one loop-body input per state variable and bind it (the
`for pv in loop_state_vars` input loop of `translate_loop_stmt`). -/
def addLoopStateInputs : List String → ConvState → Except Err ConvState
  | [], s => .ok s
  | pv :: rest, s => do
    let (ov, s) ← generate_unique_name pv s
    let s := s.add_input ov
    let s := s.bindVar pv (.dynamic ov .Loop)
    addLoopStateInputs rest s

/-- Declare one loop-body output per state variable, inserting an identity
copy when the body produced no fresh value for it (the second
`for pv in loop_state_vars` loop of `translate_loop_stmt`). -/
def addLoopStateOutputs : List String → ConvState → Except Err ConvState
  | [], s => .ok s
  | pv :: rest, s => do
    let (ov, s) ← py_var_to_onnx_var pv s
    let s ←
      if ov ∈ s.current_fn.assigned_names then pure (s.add_output ov)
      else do
        let (ov2, s) ← emit_copy ov pv s
        pure (s.add_output ov2)
    addLoopStateOutputs rest s

/-- Initial values of the loop-carried state, looked up in the enclosing
scope after the body subgraph is finished. -/
def loopStateInitialValues :
    List String → ConvState → Except Err (List String × ConvState)
  | [], s => .ok ([], s)
  | pv :: rest, s => do
    let (v, s) ← py_var_to_onnx_var pv s
    let (vs, s) ← loopStateInitialValues rest s
    .ok (v :: vs, s)

/-- Embedding of the `ast.For` (bounded counting loop) path of
`Converter.translate_loop_stmt`.  The loop bound translation and the body
(`for i, s in enumerate(loop_stmt.body)`, including the optional interception
of a trailing `if <name>: break` which yields the intercepted condition name)
are abstract parameters; `loop_state_vars` is the state-variable set
`defs(body) ∩ (exposed_uses(body) ∪ live_out)` supplied by the liveness
analysis, as a list in its iteration order. -/
def translate_loop_stmt (p_loop_var : String)
    (translateBound : ConvState → Except Err (String × ConvState))
    (loop_state_vars : List String)
    (bodyRun : ConvState → Except Err (ConvState × Option String))
    (s : ConvState) : Except Err ConvState := do
  let (o_loop_bound, s) ← translateBound s
  let (o_cond_var, s) ← generate_unique_name "cond_in" s
  let (o_true, s) ← emit_const (.bool true) (some "true") s
  let s := enter_scope "loop_body" s
  let (o_loop_var, s) ← generate_unique_name p_loop_var s
  let s := s.add_input o_loop_var
  let s := s.bindVar p_loop_var (.dynamic o_loop_var .Loop)
  let s := s.add_input o_cond_var
  let s ← addLoopStateInputs loop_state_vars s
  let (s, condition_name) ← bodyRun s
  let operator_name := if condition_name.isSome then "Not" else "Identity"
  let (o_cond_out, s) ← generate_unique_name "cond_out" s
  let s := s.emit [o_cond_out] operator_name [condition_name.getD o_cond_var] []
  let s := s.add_output o_cond_out
  let s ← addLoopStateOutputs loop_state_vars s
  let (body, s) ← exit_scope s
  let (stateInits, s) ← loopStateInitialValues loop_state_vars s
  let inputs := [o_loop_bound, o_true] ++ stateInits
  emit_loop loop_state_vars "Loop" inputs [("body", .graphA body)] s

/-- Kind of a translated expression (`ConverterExpressionKind`). -/
inductive ConverterExpressionKind where
  | ANY
  | CONST
  deriving DecidableEq, Repr

/-- Translated expression handle: a value name plus its kind. -/
structure ConverterExpression where
  name : String
  kind : ConverterExpressionKind
  deriving DecidableEq, Repr

/-- Whether the translated expression is a compile-time constant. -/
def ConverterExpression.is_const (e : ConverterExpression) : Bool :=
  e.kind = ConverterExpressionKind.CONST

/-- Type inspector of `static_cast_inputs`: a non-constant expression is its
own type information; a constant has none. -/
def static_get_type_info (x : ConverterExpression) : Option ConverterExpression :=
  if x.is_const then Option.none else some x

/-- Cast function of `static_cast_inputs`: a constant expression whose type
variable has a binding is promoted by a CastLike node with a fresh output
name; every other argument passes through as its own name. -/
def static_cast (x : ConverterExpression) (typeinfo : Option ConverterExpression)
    (s : ConvState) : Except Err (String × ConvState) :=
  match typeinfo with
  | some ti =>
    if x.is_const then do
      let (tmp, s) ← generate_unique_name (x.name ++ "_cast") s
      .ok (tmp, s.emit [tmp] "CastLike" [x.name, ti.name] [])
    else .ok (x.name, s)
  | Option.none => .ok (x.name, s)

/-- Run the per-argument cast computations left to right, threading the
converter state (the list comprehension of the second pass of `cast_inputs`
as executed by the static specialization). -/
def threadCasts :
    List (ConvState → Except Err (String × ConvState)) → ConvState →
    Except Err (List String × ConvState)
  | [], s => .ok ([], s)
  | c :: rest, s => do
    let (n, s) ← c s
    let (ns, s) ← threadCasts rest s
    .ok (n :: ns, s)

/-- Embedding of `static_cast_inputs`: the shared `cast_inputs` algorithm
specialized with the static inspector and the CastLike-emitting cast. -/
def static_cast_inputs (op_schema : Option OpSchema)
    (args : List ConverterExpression) (s : ConvState) :
    Except Err (List String × ConvState) := do
  let casts ← cast_inputs static_get_type_info static_cast op_schema args
  threadCasts casts s

/-! ## Properties of the autocast promotion functions -/

/-- Whether a python value is a scalar literal (bool, int or float). -/
def isScalarLit : PyValue → Bool
  | .bool _ => true
  | .int _ => true
  | .float _ => true
  | _ => false

/-- The promoted numpy dtype of a scalar literal's python type, as the spec
states it: bool to boolean, int to 64-bit integer, float to 32-bit float. -/
def promoted_dtype : PyType → Option NpDtype
  | .boolT => some NpDtype.bool_
  | .intT => some NpDtype.int64
  | .floatT => some NpDtype.float32
  | _ => Option.none

/-- The element whose type drives list promotion: a list's first element, a
scalar itself. -/
def litHead : PyValue → PyValue
  | .list (x :: _) => x
  | v => v

/-- Domain of the agreement claim: a scalar literal, or a non-empty list of
scalar literals all of the same python type. -/
def C2Dom (v : PyValue) : Prop :=
  isScalarLit v = true ∨
    ∃ x xs, v = .list (x :: xs) ∧ isScalarLit x = true ∧
      ∀ e ∈ x :: xs, e.ptype = x.ptype

lemma isinst_self (e : PyValue) : isinst e e.ptype = true := by
  cases e <;> rfl

lemma isScalarLit_of_ptype {e x : PyValue} (h : e.ptype = x.ptype)
    (hx : isScalarLit x = true) : isScalarLit e = true := by
  cases e <;> cases x <;> simp_all [PyValue.ptype, isScalarLit]

lemma np_scalar_ok_of_scalar {e : PyValue} (h : isScalarLit e = true)
    (d : NpDtype) : np_scalar_ok e d = true := by
  cases e <;> simp_all [isScalarLit, np_scalar_ok]

/-- C2: for every python literal that is a bool, int, float, or homogeneous
non-empty list of such, the static specialization (`pyvalue_to_onnx_tensor`
via `_py_type_to_onnx_type`) and the dynamic specialization
(`cast_pyvalue_to_os_tensor` via `_get_dtype`) choose the identical target
element type — bool to boolean, int to 64-bit integer, float to 32-bit float,
and a list to its first element's promoted type at rank 1. -/
theorem autocast_specializations_agree (name : String) (v : PyValue)
    (h : C2Dom v) :
    ∃ (d : NpDtype) (t : OnnxTensor),
      _get_dtype v = .ok d ∧
      promoted_dtype (litHead v).ptype = some d ∧
      pyvalue_to_onnx_tensor name v = .ok t ∧
      t.elt_type = onnx_elt_of_dtype d ∧
      cast_pyvalue_to_os_tensor v Option.none = .ok (.tensor d t.dims) ∧
      (match v with
       | .list xs => t.dims = [xs.length]
       | _ => t.dims = []) := by
  rcases h with hs | ⟨x, xs, rfl, hx, hall⟩
  · cases v with
    | bool b =>
      exact ⟨.bool_, ⟨name, .BOOL, [], [.int (if b then 1 else 0)]⟩,
        rfl, rfl, rfl, rfl, rfl, rfl⟩
    | int i =>
      exact ⟨.int64, ⟨name, .INT64, [], [.int i]⟩, rfl, rfl, rfl, rfl, rfl, rfl⟩
    | float f =>
      exact ⟨.float32, ⟨name, .FLOAT, [], [.float f]⟩, rfl, rfl, rfl, rfl, rfl, rfl⟩
    | _ => simp [isScalarLit] at hs
  · have hall2 : ((x :: xs).all fun e => isinst e x.ptype) = true := by
      rw [List.all_eq_true]
      intro e he
      rw [← hall e he]
      exact isinst_self e
    have hnp : ∀ d : NpDtype,
        ((x :: xs).all fun e => np_scalar_ok e d) = true := by
      intro d
      rw [List.all_eq_true]
      intro e he
      exact np_scalar_ok_of_scalar (isScalarLit_of_ptype (hall e he) hx) d
    cases x with
    | bool b =>
      refine ⟨.bool_, ⟨name, .BOOL, [(PyValue.bool b :: xs).length],
        PyValue.bool b :: xs⟩, rfl, rfl, ?_, rfl, ?_, rfl⟩
      · simp only [pyvalue_to_onnx_tensor]
        rw [hall2]
        rfl
      · simp only [cast_pyvalue_to_os_tensor]
        rw [if_pos]
        · simp only [_get_dtype, np_array, bind, Except.bind]
          rw [hnp NpDtype.bool_]
          rfl
        · rfl
    | int i =>
      refine ⟨.int64, ⟨name, .INT64, [(PyValue.int i :: xs).length],
        PyValue.int i :: xs⟩, rfl, rfl, ?_, rfl, ?_, rfl⟩
      · simp only [pyvalue_to_onnx_tensor]
        rw [hall2]
        rfl
      · simp only [cast_pyvalue_to_os_tensor]
        rw [if_pos]
        · simp only [_get_dtype, np_array, bind, Except.bind]
          rw [hnp NpDtype.int64]
          rfl
        · rfl
    | float f =>
      refine ⟨.float32, ⟨name, .FLOAT, [(PyValue.float f :: xs).length],
        PyValue.float f :: xs⟩, rfl, rfl, ?_, rfl, ?_, rfl⟩
      · simp only [pyvalue_to_onnx_tensor]
        rw [hall2]
        rfl
      · simp only [cast_pyvalue_to_os_tensor]
        rw [if_pos]
        · simp only [_get_dtype, np_array, bind, Except.bind]
          rw [hnp NpDtype.float32]
          rfl
        · rfl
    | _ => simp [isScalarLit] at hx

/-- Witness for C2 at a concrete homogeneous literal list. -/
theorem autocast_specializations_agree_witness :
    C2Dom (.list [.int 5, .int 7]) ∧
      ∃ (d : NpDtype) (t : OnnxTensor),
        _get_dtype (.list [.int 5, .int 7]) = .ok d ∧
        promoted_dtype (litHead (.list [.int 5, .int 7])).ptype = some d ∧
        pyvalue_to_onnx_tensor "t" (.list [.int 5, .int 7]) = .ok t ∧
        t.elt_type = onnx_elt_of_dtype d ∧
        cast_pyvalue_to_os_tensor (.list [.int 5, .int 7]) Option.none
          = .ok (.tensor d t.dims) ∧
        (match (PyValue.list [.int 5, .int 7]) with
         | .list xs => t.dims = [xs.length]
         | _ => t.dims = []) := by
  have hdom : C2Dom (.list [.int 5, .int 7]) := by
    refine Or.inr ⟨.int 5, [.int 7], rfl, rfl, ?_⟩
    intro e he
    rcases List.mem_cons.mp he with h | h2
    · rw [h]
    · rw [List.mem_singleton.mp h2]
      rfl
  exact ⟨hdom, autocast_specializations_agree "t" (.list [.int 5, .int 7]) hdom⟩

/-- C3 counterexample: the dynamic specialization does not reject bad lists.
The empty list is not promotable, so `cast_pyvalue_to_os_tensor` returns it
unchanged with no error (refuting "promoting an empty literal list fails with
an EmptyListError" for the dynamic specialization), and the heterogeneous
list `[1, 2.0]` is silently promoted using the first element's dtype
(refuting the heterogeneous-list conjunct), while the static specialization
does reject it. -/
theorem dynamic_list_promotion_counterexample :
    cast_pyvalue_to_os_tensor (.list []) Option.none = .ok (.list []) ∧
    cast_pyvalue_to_os_tensor (.list [.int 1, .float 2]) Option.none
      = .ok (.tensor .int64 [2]) ∧
    pyvalue_to_onnx_tensor "t" (.list [.int 1, .float 2])
      = .error .typeMismatch :=
  ⟨rfl, rfl, rfl⟩

/-- C3 amended: only the static specialization enforces the list checks.
`pyvalue_to_onnx_tensor` fails with the type-mismatch error on a list whose
elements are not all instances of the first element's type and with the
empty-list error on an empty list, while `cast_pyvalue_to_os_tensor` performs
neither check: an empty list is not promotable and is returned unchanged with
no error, and a list whose first element is promotable is promoted using the
first element's dtype regardless of the remaining elements. -/
theorem list_promotion_checks :
    (∀ name, pyvalue_to_onnx_tensor name (.list []) = .error .emptyList)
    ∧ (∀ name (x : PyValue) xs,
        ¬(((x :: xs).all fun e => isinst e x.ptype) = true) →
        pyvalue_to_onnx_tensor name (.list (x :: xs)) = .error .typeMismatch)
    ∧ (∀ d, cast_pyvalue_to_os_tensor (.list []) d = .ok (.list []))
    ∧ (∀ (x : PyValue) xs, _promotable x = true →
        cast_pyvalue_to_os_tensor (.list (x :: xs)) Option.none
          = (_get_dtype x).bind (fun d => np_array (.list (x :: xs)) d)) := by
  refine ⟨fun _ => rfl, ?_, fun _ => rfl, ?_⟩
  · intro name x xs h
    simp only [pyvalue_to_onnx_tensor]
    rw [if_neg h]
  · intro x xs h
    simp only [cast_pyvalue_to_os_tensor]
    rw [if_pos]
    · rfl
    · show _promotable (.list (x :: xs)) = true
      simpa [_promotable] using h

/-- Witness for the amended C3 at concrete inputs. -/
theorem list_promotion_checks_witness :
    pyvalue_to_onnx_tensor "t" (.list [.float 1, .int 2]) = .error .typeMismatch
    ∧ cast_pyvalue_to_os_tensor (.list [.int 1, .str "a"]) Option.none
        = (_get_dtype (.int 1)).bind
            (fun d => np_array (.list [.int 1, .str "a"]) d) := by
  constructor
  · exact list_promotion_checks.2.1 "t" (.float 1) [.int 2] (by decide)
  · exact list_promotion_checks.2.2.2 (.int 1) [.str "a"] rfl

/-- C10: every value that is not a promotable literal — in particular strings,
already-typed tensors, None and the empty list — is returned unchanged by
`cast_pyvalue_to_os_tensor`, with no error and for every requested dtype. -/
theorem cast_pyvalue_nonpromotable_unchanged :
    (∀ (v : PyValue) (d : Option NpDtype), _promotable v = false →
      cast_pyvalue_to_os_tensor v d = .ok v)
    ∧ (∀ s, _promotable (.str s) = false)
    ∧ (∀ dt sh, _promotable (.tensor dt sh) = false)
    ∧ _promotable .pynone = false
    ∧ _promotable (.list []) = false
    ∧ (∀ (x : PyValue) xs, _promotable x = false →
        _promotable (.list (x :: xs)) = false) := by
  refine ⟨?_, fun _ => rfl, fun _ _ => rfl, rfl, rfl, ?_⟩
  · intro v d h
    simp only [cast_pyvalue_to_os_tensor]
    rw [if_neg]
    simp [h]
  · intro x xs h
    simpa [_promotable] using h

/-- Witness for C10 at concrete non-promotable inputs. -/
theorem cast_pyvalue_nonpromotable_unchanged_witness :
    cast_pyvalue_to_os_tensor (.str "a") (some .int64) = .ok (.str "a")
    ∧ cast_pyvalue_to_os_tensor (.tensor .float32 [2, 3]) Option.none
        = .ok (.tensor .float32 [2, 3])
    ∧ cast_pyvalue_to_os_tensor .pynone Option.none = .ok .pynone
    ∧ cast_pyvalue_to_os_tensor (.list []) (some .bool_) = .ok (.list []) := by
  refine ⟨?_, ?_, ?_, ?_⟩
  · exact cast_pyvalue_nonpromotable_unchanged.1 (.str "a") (some .int64) rfl
  · exact cast_pyvalue_nonpromotable_unchanged.1 (.tensor .float32 [2, 3])
      Option.none rfl
  · exact cast_pyvalue_nonpromotable_unchanged.1 .pynone Option.none rfl
  · exact cast_pyvalue_nonpromotable_unchanged.1 (.list []) (some .bool_) rfl

/-! ## Properties of the shared two-pass binding algorithm -/

/-- The concrete types the inspector can determine for the arguments labelled
with type variable `v`, in argument order. -/
def knowable_types_for {α τ : Type} (get_type_info : α → Option τ)
    (pairs : List (α × Option String)) (v : String) : List τ :=
  pairs.filterMap
    (fun p => if p.2 = some v then get_type_info p.1 else Option.none)

/-- The binding resulting from storing each element of `l` in turn into a
dict slot whose prior content is `d`: the last element when there is one. -/
def lastBinding {τ : Type} (l : List τ) (d : Option τ) : Option τ :=
  match l.getLast? with
  | some t => some t
  | Option.none => d

lemma lastBinding_cons {τ : Type} (t : τ) (l : List τ) (d : Option τ) :
    lastBinding (t :: l) d = lastBinding l (some t) := by
  cases l with
  | nil => rfl
  | cons a as => simp [lastBinding, List.getLast?]

lemma cast_inputs_pass1_bindings {α τ : Type} (getTI : α → Option τ)
    (schema : List FormalParameter) :
    ∀ (args : List α) (i : Nat) (tb0 : String → Option τ)
      (tbF : String → Option τ) (pairs : List (α × Option String)),
      cast_inputs_pass1 getTI schema args i tb0 = .ok (tbF, pairs) →
      ∀ v : String, ¬(v.data.contains '(' = true) →
        tbF v = lastBinding (knowable_types_for getTI pairs v) (tb0 v) := by
  intro args
  induction args with
  | nil =>
    intro i tb0 tbF pairs h v _
    simp only [cast_inputs_pass1] at h
    cases h
    rfl
  | cons x rest ih =>
    intro i tb0 tbF pairs h v hv
    simp only [cast_inputs_pass1] at h
    cases hsel : select_expected schema i with
    | error e => rw [hsel] at h; exact absurd h (by simp [bind, Except.bind])
    | ok expectedO =>
      rw [hsel] at h
      cases expectedO with
      | none =>
        simp only [bind, Except.bind] at h
        cases hrec : cast_inputs_pass1 getTI schema rest (i + 1) tb0 with
        | error e => rw [hrec] at h; exact absurd h (by simp)
        | ok p =>
          obtain ⟨tbF2, pairs2⟩ := p
          rw [hrec] at h
          cases h
          have := ih (i + 1) tb0 tbF2 pairs2 hrec v hv
          simpa [knowable_types_for] using this
      | some expected =>
        simp only [bind, Except.bind] at h
        by_cases hpar : expected.type_str.data.contains '(' = true
        · rw [if_pos hpar] at h
          cases hrec : cast_inputs_pass1 getTI schema rest (i + 1) tb0 with
          | error e => rw [hrec] at h; exact absurd h (by simp)
          | ok p =>
            obtain ⟨tbF2, pairs2⟩ := p
            rw [hrec] at h
            cases h
            have hih := ih (i + 1) tb0 tbF2 pairs2 hrec v hv
            have hne : (some expected.type_str = some v) = False := by
              simp only [eq_iff_iff, iff_false]
              intro hc
              apply hv
              rw [← Option.some_inj.mp hc]
              exact hpar
            simp only [knowable_types_for, List.filterMap_cons, hne, if_false]
            exact hih
        · rw [if_neg hpar] at h
          cases hti : getTI x with
          | none =>
            rw [hti] at h
            cases hrec : cast_inputs_pass1 getTI schema rest (i + 1) tb0 with
            | error e => rw [hrec] at h; exact absurd h (by simp)
            | ok p =>
              obtain ⟨tbF2, pairs2⟩ := p
              rw [hrec] at h
              cases h
              have hih := ih (i + 1) tb0 tbF2 pairs2 hrec v hv
              by_cases hvv : expected.type_str = v
              · simp only [knowable_types_for, List.filterMap_cons, hvv, if_pos rfl,
                  hti]
                exact hih
              · have : (some expected.type_str = some v) = False := by
                  simp [hvv]
                simp only [knowable_types_for, List.filterMap_cons, this, if_false]
                exact hih
          | some ti =>
            rw [hti] at h
            cases hrec : cast_inputs_pass1 getTI schema rest (i + 1)
                (bindInsert tb0 expected.type_str ti) with
            | error e => rw [hrec] at h; exact absurd h (by simp)
            | ok p =>
              obtain ⟨tbF2, pairs2⟩ := p
              rw [hrec] at h
              cases h
              have hih := ih (i + 1) (bindInsert tb0 expected.type_str ti)
                tbF2 pairs2 hrec v hv
              by_cases hvv : expected.type_str = v
              · subst hvv
                simp only [knowable_types_for, List.filterMap_cons, hti,
                  if_pos rfl, ite_true, eq_self_iff_true]
                rw [lastBinding_cons, hih]
                congr 1
                simp [bindInsert]
              · have hne : (some expected.type_str = some v) = False := by
                  simp [hvv]
                simp only [knowable_types_for, List.filterMap_cons, hne, if_false]
                rw [hih]
                congr 1
                rw [bindInsert, if_neg (fun hh => hvv hh.symm)]

/-- C1 counterexample: with a schema whose two formals share the bare type
variable "T" and an inspector that knows both arguments' types, the binding
applied in the second pass is the type of the SECOND (last) argument, `2`,
although the first knowable argument labelled "T" has type `1`: both cast
results carry `some 2`, so the first-writer-wins reading is false. -/
theorem cast_inputs_first_writer_counterexample :
    cast_inputs (fun (n : Nat) => some n) (fun (x : Nat) b => (x, b))
        (some ⟨[⟨"T", .Single, true⟩, ⟨"T", .Single, true⟩]⟩) [1, 2]
      = .ok [(1, some 2), (2, some 2)]
    ∧ (some 2 : Option Nat) ≠ some 1 :=
  ⟨rfl, by decide⟩

/-- C1 amended: in `cast_inputs`, every type variable is bound to the concrete
type of the LAST argument labelled with that variable whose type the inspector
can determine (a later knowable argument overwrites an established binding),
and the second pass casts each argument with that final binding. -/
theorem cast_inputs_last_writer_wins {α τ β : Type} (getTI : α → Option τ)
    (cast : α → Option τ → β) (schema : OpSchema) (args : List α)
    (tbF : String → Option τ) (pairs : List (α × Option String))
    (h : cast_inputs_pass1 getTI schema.inputs args 0 (fun _ => Option.none)
      = .ok (tbF, pairs))
    (v : String) (hv : ¬(v.data.contains '(' = true)) :
    tbF v = (knowable_types_for getTI pairs v).getLast?
    ∧ cast_inputs getTI cast (some schema) args
      = .ok (pairs.map (fun p => cast p.1 (p.2.bind tbF))) := by
  constructor
  · have := cast_inputs_pass1_bindings getTI schema.inputs args 0
      (fun _ => Option.none) tbF pairs h v hv
    rw [this]
    cases hlast : (knowable_types_for getTI pairs v).getLast? with
    | none => simp [lastBinding, hlast]
    | some t => simp [lastBinding, hlast]
  · simp only [cast_inputs, h, bind, Except.bind]

/-- Witness for the amended C1: a three-argument homogeneous-typevar call
where the first two arguments are knowable; the binding is the second
argument's type. -/
theorem cast_inputs_last_writer_wins_witness :
    cast_inputs_pass1 (fun (n : Nat) => if n = 3 then Option.none else some n)
        [⟨"T", .Single, true⟩, ⟨"T", .Single, true⟩, ⟨"T", .Single, true⟩]
        [1, 2, 3] 0 (fun _ => Option.none)
      = .ok (bindInsert (bindInsert (fun _ => Option.none) "T" 1) "T" 2,
          [(1, some "T"), (2, some "T"), (3, some "T")])
    ∧ ¬(("T" : String).data.contains '(' = true)
    ∧ (bindInsert (bindInsert (fun _ => Option.none) "T" 1) "T" 2) "T"
        = (knowable_types_for (fun (n : Nat) => if n = 3 then Option.none else some n)
            [(1, some "T"), (2, some "T"), (3, some "T")] "T").getLast? := by
  refine ⟨rfl, by decide, ?_⟩
  exact (cast_inputs_last_writer_wins
    (fun (n : Nat) => if n = 3 then Option.none else some n)
    (fun (x : Nat) b => (x, b))
    ⟨[⟨"T", .Single, true⟩, ⟨"T", .Single, true⟩, ⟨"T", .Single, true⟩]⟩
    [1, 2, 3] _ _ rfl "T" (by decide)).1

lemma cast_inputs_pass1_total_of_variadic {α τ : Type} (getTI : α → Option τ)
    (schema : List FormalParameter) (l : FormalParameter)
    (hl : schema.getLast? = some l)
    (hv : l.option = FormalParameterOption.Variadic) :
    ∀ (args : List α) (i : Nat) (tb : String → Option τ),
      ∃ p, cast_inputs_pass1 getTI schema args i tb = .ok p := by
  intro args
  induction args with
  | nil => intro i tb; exact ⟨(tb, []), rfl⟩
  | cons x rest ih =>
    intro i tb
    simp only [cast_inputs_pass1]
    by_cases hlt : i < schema.length
    · simp only [select_expected, dif_pos hlt, bind, Except.bind]
      by_cases hpar : schema[i].type_str.data.contains '(' = true
      · rw [if_pos hpar]
        obtain ⟨⟨tbF, pairs⟩, hrec⟩ := ih (i + 1) tb
        rw [hrec]
        exact ⟨_, rfl⟩
      · rw [if_neg hpar]
        cases hti : getTI x with
        | none =>
          obtain ⟨⟨tbF, pairs⟩, hrec⟩ := ih (i + 1) tb
          rw [hrec]
          exact ⟨_, rfl⟩
        | some ti =>
          obtain ⟨⟨tbF, pairs⟩, hrec⟩ :=
            ih (i + 1) (bindInsert tb schema[i].type_str ti)
          rw [hrec]
          exact ⟨_, rfl⟩
    · simp only [select_expected, dif_neg hlt, hl, hv, if_pos rfl, bind,
        Except.bind]
      cases hh : l.is_homogeneous with
      | false =>
        simp only [Bool.false_eq_true, if_false]
        obtain ⟨⟨tbF, pairs⟩, hrec⟩ := ih (i + 1) tb
        rw [hrec]
        exact ⟨_, rfl⟩
      | true =>
        simp only [if_true]
        by_cases hpar : l.type_str.data.contains '(' = true
        · rw [if_pos hpar]
          obtain ⟨⟨tbF, pairs⟩, hrec⟩ := ih (i + 1) tb
          rw [hrec]
          exact ⟨_, rfl⟩
        · rw [if_neg hpar]
          cases hti : getTI x with
          | none =>
            obtain ⟨⟨tbF, pairs⟩, hrec⟩ := ih (i + 1) tb
            rw [hrec]
            exact ⟨_, rfl⟩
          | some ti =>
            obtain ⟨⟨tbF, pairs⟩, hrec⟩ :=
              ih (i + 1) (bindInsert tb l.type_str ti)
            rw [hrec]
            exact ⟨_, rfl⟩

lemma cast_inputs_pass1_arity_of_not_variadic {α τ : Type} (getTI : α → Option τ)
    (schema : List FormalParameter) (l : FormalParameter)
    (hl : schema.getLast? = some l)
    (hnv : l.option ≠ FormalParameterOption.Variadic) :
    ∀ (args : List α) (i : Nat) (tb : String → Option τ),
      (cast_inputs_pass1 getTI schema args i tb = .error .arity ↔
        (schema.length < i + args.length ∧ args ≠ [])) := by
  intro args
  induction args with
  | nil =>
    intro i tb
    simp [cast_inputs_pass1]
  | cons x rest ih =>
    intro i tb
    simp only [cast_inputs_pass1]
    by_cases hlt : i < schema.length
    · simp only [select_expected, dif_pos hlt, bind, Except.bind]
      have step : ∀ tb2 : String → Option τ,
          ((do
            let (tbF, pairs) ← cast_inputs_pass1 getTI schema rest (i + 1) tb2
            (.ok (tbF, (x, some schema[i].type_str) :: pairs) :
              Except Err ((String → Option τ) × List (α × Option String))))
            = .error .arity ↔
            (schema.length < i + 1 + rest.length ∧ rest ≠ [])) := by
        intro tb2
        rw [← ih (i + 1) tb2]
        cases hrec : cast_inputs_pass1 getTI schema rest (i + 1) tb2 with
        | error e => simp [bind, Except.bind]
        | ok p => obtain ⟨a, b⟩ := p; simp [bind, Except.bind]
      have harith : (schema.length < i + 1 + rest.length ∧ rest ≠ []) ↔
          (schema.length < i + (x :: rest).length ∧ x :: rest ≠ []) := by
        simp only [List.length_cons, ne_eq, not_false_eq_true, and_true]
        cases rest with
        | nil => simp; omega
        | cons y ys => simp [List.length_cons]; constructor <;> (intro; omega)
      by_cases hpar : schema[i].type_str.data.contains '(' = true
      · rw [if_pos hpar, ← harith]
        exact step tb
      · rw [if_neg hpar]
        cases hti : getTI x with
        | none => rw [← harith]; exact step tb
        | some ti => rw [← harith]; exact step (bindInsert tb schema[i].type_str ti)
    · simp only [select_expected, dif_neg hlt, hl, if_neg hnv, bind, Except.bind]
      constructor
      · intro _
        constructor
        · have : schema.length ≤ i := Nat.le_of_not_lt hlt
          simp only [List.length_cons]
          omega
        · simp
      · intro _
        trivial

/-- C8: `cast_inputs` raises the arity error if and only if the actual
arguments outnumber the formal parameters and the trailing formal is not
variadic; with a variadic trailing formal any number of excess arguments is
accepted without error. -/
theorem cast_inputs_arity_iff {α τ β : Type} (getTI : α → Option τ)
    (cast : α → Option τ → β) (schema : OpSchema) (args : List α)
    (l : FormalParameter) (hl : schema.inputs.getLast? = some l) :
    (cast_inputs getTI cast (some schema) args = .error .arity ↔
      (schema.inputs.length < args.length ∧
        l.option ≠ FormalParameterOption.Variadic))
    ∧ (l.option = FormalParameterOption.Variadic →
        ∃ r, cast_inputs getTI cast (some schema) args = .ok r) := by
  have hprop : ∀ (e : Err),
      (cast_inputs getTI cast (some schema) args = .error e ↔
        cast_inputs_pass1 getTI schema.inputs args 0 (fun _ => Option.none)
          = .error e) := by
    intro e
    simp only [cast_inputs]
    cases hres : cast_inputs_pass1 getTI schema.inputs args 0
        (fun _ => Option.none) with
    | error e2 => simp [bind, Except.bind]
    | ok p => obtain ⟨a, b⟩ := p; simp [bind, Except.bind]
  constructor
  · by_cases hv : l.option = FormalParameterOption.Variadic
    · obtain ⟨⟨a, b⟩, hp⟩ :=
        cast_inputs_pass1_total_of_variadic getTI schema.inputs l hl hv args 0
          (fun _ => Option.none)
      rw [hprop Err.arity, hp]
      simp [hv]
    · rw [hprop Err.arity,
        cast_inputs_pass1_arity_of_not_variadic getTI schema.inputs l hl hv
          args 0 (fun _ => Option.none)]
      constructor
      · intro ⟨h1, _⟩
        exact ⟨by omega, hv⟩
      · intro ⟨h1, _⟩
        refine ⟨by omega, ?_⟩
        intro hnil
        rw [hnil] at h1
        simp at h1
  · intro hv
    obtain ⟨⟨a, b⟩, hp⟩ :=
      cast_inputs_pass1_total_of_variadic getTI schema.inputs l hl hv args 0
        (fun _ => Option.none)
    exact ⟨b.map (fun p => cast p.1 (p.2.bind a)),
      by simp only [cast_inputs, hp, bind, Except.bind]⟩

/-- Witness for C8: a two-formal non-variadic schema raises the arity error on
three arguments, and a trailing-variadic schema accepts five. -/
theorem cast_inputs_arity_iff_witness :
    (cast_inputs (fun (n : Nat) => some n) (fun (x : Nat) b => (x, b))
        (some ⟨[⟨"T", .Single, true⟩, ⟨"T", .Single, true⟩]⟩) [1, 2, 3]
      = .error .arity)
    ∧ ∃ r, cast_inputs (fun (n : Nat) => some n) (fun (x : Nat) b => (x, b))
        (some ⟨[⟨"T", .Variadic, true⟩]⟩) [1, 2, 3, 4, 5] = .ok r := by
  constructor
  · exact (cast_inputs_arity_iff (fun (n : Nat) => some n)
      (fun (x : Nat) b => (x, b))
      ⟨[⟨"T", .Single, true⟩, ⟨"T", .Single, true⟩]⟩ [1, 2, 3]
      ⟨"T", .Single, true⟩ rfl).1.mpr (by simp)
  · exact (cast_inputs_arity_iff (fun (n : Nat) => some n)
      (fun (x : Nat) b => (x, b)) ⟨[⟨"T", .Variadic, true⟩]⟩ [1, 2, 3, 4, 5]
      ⟨"T", .Variadic, true⟩ rfl).2 rfl

/-! ## Properties of the converter state operations -/

lemma generate_unique_name_loop_not_used (used : List String) (cand : String) :
    ∀ (fuel : Nat) (r0 : String) (nv0 : Nat) (r : String) (nv : Nat),
      generate_unique_name_loop used cand fuel r0 nv0 = some (r, nv) →
      r ∉ used := by
  intro fuel
  induction fuel with
  | zero => intro r0 nv0 r nv h; exact absurd h (by simp [generate_unique_name_loop])
  | succ n ih =>
    intro r0 nv0 r nv h
    simp only [generate_unique_name_loop] at h
    by_cases hmem : r0 ∈ used
    · rw [if_pos hmem] at h
      exact ih _ _ _ _ h
    · rw [if_neg hmem] at h
      cases h
      exact hmem

/-- Full characterization of a successful `generate_unique_name` call. -/
lemma gen_ok {candidate : String} {s : ConvState} {r : String} {s' : ConvState}
    (h : generate_unique_name candidate s = .ok (r, s')) :
    r ∉ s.used_vars ∧ s'.used_vars = r :: s.used_vars ∧ s'.outer = s.outer ∧
      s'.current_fn = s.current_fn ∧ s'.locals = s.locals ∧
      s'.globals = s.globals := by
  simp only [generate_unique_name] at h
  cases hloop : generate_unique_name_loop s.used_vars candidate
      (s.used_vars.length + 2) candidate s.nextvar with
  | none => rw [hloop] at h; exact absurd h (by simp)
  | some p =>
    obtain ⟨r2, nv⟩ := p
    rw [hloop] at h
    cases h
    exact ⟨generate_unique_name_loop_not_used s.used_vars candidate _ _ _ _ _
      hloop, rfl, rfl, rfl, rfl, rfl⟩

/-- C9: a successful call of the unique-name generator returns a name not in
the used set, records it as used (the used set grows by exactly that name),
and any later successful call from a state still recording the name — in
particular the immediately following call — returns a different name. -/
theorem generate_unique_name_spec (candidate : String) (s : ConvState)
    (r : String) (s' : ConvState)
    (h : generate_unique_name candidate s = .ok (r, s')) :
    r ∉ s.used_vars ∧ s'.used_vars = r :: s.used_vars ∧
      (∀ (s2 : ConvState), r ∈ s2.used_vars →
        ∀ (c2 r2 : String) (s3 : ConvState),
          generate_unique_name c2 s2 = .ok (r2, s3) → r2 ≠ r) ∧
      (∀ (c2 r2 : String) (s3 : ConvState),
        generate_unique_name c2 s' = .ok (r2, s3) → r2 ≠ r) := by
  obtain ⟨h1, h2, _⟩ := gen_ok h
  have h3 : ∀ (s2 : ConvState), r ∈ s2.used_vars →
      ∀ (c2 r2 : String) (s3 : ConvState),
        generate_unique_name c2 s2 = .ok (r2, s3) → r2 ≠ r := by
    intro s2 hmem c2 r2 s3 hg heq
    obtain ⟨hr2, _⟩ := gen_ok hg
    rw [heq] at hr2
    exact hr2 hmem
  refine ⟨h1, h2, h3, ?_⟩
  intro c2 r2 s3 hg
  exact h3 s' (by rw [h2]; exact List.mem_cons_self r _) c2 r2 s3 hg

/-- Witness for C9 at a concrete state whose used set already holds "tmp". -/
theorem generate_unique_name_spec_witness :
    generate_unique_name "tmp"
        ⟨[], .new "f", 0, ["tmp"], [[]], []⟩
      = .ok ("tmp_0", ⟨[], .new "f", 1, ["tmp_0", "tmp"], [[]], []⟩)
    ∧ "tmp_0" ∉ ["tmp"]
    ∧ ("tmp_0" :: ["tmp"] : List String) = ["tmp_0", "tmp"] := by
  have h : generate_unique_name "tmp" ⟨[], .new "f", 0, ["tmp"], [[]], []⟩
      = .ok ("tmp_0", ⟨[], .new "f", 1, ["tmp_0", "tmp"], [[]], []⟩) := by
    simp only [generate_unique_name, generate_unique_name_loop]
    rfl
  refine ⟨h, ?_, rfl⟩
  exact (generate_unique_name_spec "tmp" ⟨[], .new "f", 0, ["tmp"], [[]], []⟩
    "tmp_0" ⟨[], .new "f", 1, ["tmp_0", "tmp"], [[]], []⟩ h).1

lemma addStmt_stmts (f : IRFunction) (st : IRStmt) :
    (f.addStmt st).stmts = f.stmts ++ [st] := by
  cases f; rfl

lemma addStmt_outputs (f : IRFunction) (st : IRStmt) :
    (f.addStmt st).outputs = f.outputs := by
  cases f; rfl

lemma addStmt_inputs (f : IRFunction) (st : IRStmt) :
    (f.addStmt st).inputs = f.inputs := by
  cases f; rfl

lemma addStmt_name (f : IRFunction) (st : IRStmt) :
    (f.addStmt st).name = f.name := by
  cases f; rfl

lemma addOutput_outputs (f : IRFunction) (x : String) :
    (f.addOutput x).outputs = f.outputs ++ [x] := by
  cases f; rfl

lemma addOutput_stmts (f : IRFunction) (x : String) :
    (f.addOutput x).stmts = f.stmts := by
  cases f; rfl

lemma addOutput_inputs (f : IRFunction) (x : String) :
    (f.addOutput x).inputs = f.inputs := by
  cases f; rfl

lemma addOutput_name (f : IRFunction) (x : String) :
    (f.addOutput x).name = f.name := by
  cases f; rfl

lemma addInput_inputs (f : IRFunction) (x : String) :
    (f.addInput x).inputs = f.inputs ++ [x] := by
  cases f; rfl

lemma addInput_stmts (f : IRFunction) (x : String) :
    (f.addInput x).stmts = f.stmts := by
  cases f; rfl

lemma addInput_outputs (f : IRFunction) (x : String) :
    (f.addInput x).outputs = f.outputs := by
  cases f; rfl

lemma assigned_names_addStmt (f : IRFunction) (st : IRStmt) :
    (f.addStmt st).assigned_names = f.assigned_names ++ st.outputs := by
  cases f
  simp [IRFunction.assigned_names, IRFunction.addStmt, IRFunction.stmts]

lemma assigned_names_addOutput (f : IRFunction) (x : String) :
    (f.addOutput x).assigned_names = f.assigned_names := by
  cases f; rfl

lemma assigned_names_addInput (f : IRFunction) (x : String) :
    (f.addInput x).assigned_names = f.assigned_names := by
  cases f; rfl

/-- Frame preservation for state transitions that only read the scope stack:
the scope stack, globals and enclosing-function stack are unchanged, and the
used-name set only grows. -/
def FramePres (s s' : ConvState) : Prop :=
  s'.outer = s.outer ∧ s'.locals = s.locals ∧ s'.globals = s.globals ∧
    s.used_vars ⊆ s'.used_vars

lemma FramePres_refl (s : ConvState) : FramePres s s :=
  ⟨rfl, rfl, rfl, fun _ h => h⟩

lemma FramePres_trans {s1 s2 s3 : ConvState} (h1 : FramePres s1 s2)
    (h2 : FramePres s2 s3) : FramePres s1 s3 :=
  ⟨h2.1.trans h1.1, h2.2.1.trans h1.2.1, h2.2.2.1.trans h1.2.2.1,
    fun _ ha => h2.2.2.2 (h1.2.2.2 ha)⟩

/-- A transition that preserves the frame and only appends statements with
operators drawn from `ops` to the current function (its declared inputs and
outputs untouched). -/
def AppendsOps (s s' : ConvState) (ops : List String) : Prop :=
  FramePres s s' ∧ s'.current_fn.name = s.current_fn.name ∧
    s'.current_fn.inputs = s.current_fn.inputs ∧
    s'.current_fn.outputs = s.current_fn.outputs ∧
    ∃ L, s'.current_fn.stmts = s.current_fn.stmts ++ L ∧
      ∀ st ∈ L, st.op ∈ ops

lemma AppendsOps_refl (s : ConvState) (ops : List String) :
    AppendsOps s s ops :=
  ⟨FramePres_refl s, rfl, rfl, rfl, [], by simp, by simp⟩

lemma AppendsOps_trans {s1 s2 s3 : ConvState} {ops : List String}
    (h1 : AppendsOps s1 s2 ops) (h2 : AppendsOps s2 s3 ops) :
    AppendsOps s1 s3 ops := by
  obtain ⟨f1, n1, i1, o1, L1, hL1, hop1⟩ := h1
  obtain ⟨f2, n2, i2, o2, L2, hL2, hop2⟩ := h2
  refine ⟨FramePres_trans f1 f2, n2.trans n1, i2.trans i1, o2.trans o1,
    L1 ++ L2, ?_, ?_⟩
  · rw [hL2, hL1, List.append_assoc]
  · intro st hst
    rcases List.mem_append.mp hst with h | h
    · exact hop1 st h
    · exact hop2 st h

lemma gen_framePres {c : String} {s : ConvState} {r : String} {s' : ConvState}
    (h : generate_unique_name c s = .ok (r, s')) :
    FramePres s s' ∧ s'.current_fn = s.current_fn := by
  obtain ⟨_, h2, h3, h4, h5, h6⟩ := gen_ok h
  exact ⟨⟨h3, h5, h6, by rw [h2]; exact fun a ha => List.mem_cons_of_mem _ ha⟩,
    h4⟩

lemma gen_appendsOps {c : String} {s : ConvState} {r : String}
    {s' : ConvState} (h : generate_unique_name c s = .ok (r, s'))
    (ops : List String) : AppendsOps s s' ops := by
  obtain ⟨hf, hc⟩ := gen_framePres h
  exact ⟨hf, by rw [hc], by rw [hc], by rw [hc], [], by rw [hc]; simp,
    by simp⟩

lemma emit_const_spec {v : PyValue} {nm : Option String} {s : ConvState}
    {r : String} {s' : ConvState} (h : emit_const v nm s = .ok (r, s')) :
    AppendsOps s s' ["Constant"] ∧
      ∃ t, s'.current_fn.stmts = s.current_fn.stmts
        ++ [IRStmt.mk [r] "Constant" [] [("value", .tensorA t)]] := by
  simp only [emit_const, bind, Except.bind] at h
  cases hg : generate_unique_name (emit_const_suggested v nm) s with
  | error e => rw [hg] at h; exact absurd h (by simp)
  | ok p =>
    obtain ⟨ovar, s1⟩ := p
    rw [hg] at h
    dsimp only at h
    cases ht : pyvalue_to_onnx_tensor ovar v with
    | error e => rw [ht] at h; exact absurd h (by simp)
    | ok t =>
      rw [ht] at h
      cases h
      obtain ⟨hf, hc⟩ := gen_framePres hg
      constructor
      · refine ⟨⟨hf.1, hf.2.1, hf.2.2.1, hf.2.2.2⟩, ?_, ?_, ?_, ?_⟩
        · simp [ConvState.emit, addStmt_name, hc]
        · simp [ConvState.emit, addStmt_inputs, hc]
        · simp [ConvState.emit, addStmt_outputs, hc]
        · exact ⟨[IRStmt.mk [r] "Constant" [] [("value", .tensorA t)]],
            by simp [ConvState.emit, addStmt_stmts, hc],
            by simp [IRStmt.op]⟩
      · exact ⟨t, by simp [ConvState.emit, addStmt_stmts, hc]⟩

lemma emit_copy_spec {v nm : String} {s : ConvState} {r : String}
    {s' : ConvState} (h : emit_copy v nm s = .ok (r, s')) :
    FramePres s s' ∧ r ∉ s.used_vars ∧
      s'.current_fn.name = s.current_fn.name ∧
      s'.current_fn.inputs = s.current_fn.inputs ∧
      s'.current_fn.outputs = s.current_fn.outputs ∧
      s'.current_fn.stmts = s.current_fn.stmts
        ++ [IRStmt.mk [r] "Identity" [v] []] := by
  simp only [emit_copy, bind, Except.bind] at h
  cases hg : generate_unique_name nm s with
  | error e => rw [hg] at h; exact absurd h (by simp)
  | ok p =>
    obtain ⟨nv, s1⟩ := p
    rw [hg] at h
    cases h
    obtain ⟨hf, hc⟩ := gen_framePres hg
    exact ⟨⟨hf.1, hf.2.1, hf.2.2.1, hf.2.2.2⟩, (gen_ok hg).1,
      by simp [ConvState.emit, addStmt_name, hc],
      by simp [ConvState.emit, addStmt_inputs, hc],
      by simp [ConvState.emit, addStmt_outputs, hc],
      by simp [ConvState.emit, addStmt_stmts, hc]⟩

lemma to_onnx_var_spec {val : BindingVal} {t : Option String} {s : ConvState}
    {r : String} {s' : ConvState} (h : to_onnx_var val t s = .ok (r, s')) :
    AppendsOps s s' ["Constant"] := by
  cases val with
  | dynamic v k =>
    simp only [to_onnx_var] at h
    cases h
    exact AppendsOps_refl s _
  | attrRef v an =>
    simp only [to_onnx_var] at h
    cases an with
    | none => exact absurd h (by simp)
    | some a =>
      simp only [bind, Except.bind] at h
      cases hg : generate_unique_name (t.getD "tmp") s with
      | error e => rw [hg] at h; exact absurd h (by simp)
      | ok p =>
        obtain ⟨res, s1⟩ := p
        rw [hg] at h
        cases h
        obtain ⟨hf, hc⟩ := gen_framePres hg
        refine ⟨⟨hf.1, hf.2.1, hf.2.2.1, hf.2.2.2⟩,
          by simp [ConvState.emit, addStmt_name, hc],
          by simp [ConvState.emit, addStmt_inputs, hc],
          by simp [ConvState.emit, addStmt_outputs, hc],
          [IRStmt.mk [res] "Constant" [] [(a, .refA a v)]],
          by simp [ConvState.emit, addStmt_stmts, hc],
          by simp [IRStmt.op]⟩
  | pyconst v =>
    simp only [to_onnx_var] at h
    exact (emit_const_spec h).1
  | funcVal f =>
    exact absurd h (by simp [to_onnx_var])

lemma py_var_to_onnx_var_spec {pv : String} {s : ConvState} {r : String}
    {s' : ConvState} (h : py_var_to_onnx_var pv s = .ok (r, s')) :
    AppendsOps s s' ["Constant"] := by
  simp only [py_var_to_onnx_var] at h
  cases hl : s.lookup pv with
  | none => rw [hl] at h; exact absurd h (by simp)
  | some val =>
    rw [hl] at h
    exact to_onnx_var_spec h

/-- The CastLike node `static_cast` emits for a constant argument with a
resolved binding. -/
def castLikeStmt (outName : String) (x ti : ConverterExpression) : IRStmt :=
  IRStmt.mk [outName] "CastLike" [x.name, ti.name] []

lemma threadCasts_static_spec (tb : String → Option ConverterExpression) :
    ∀ (pairs : List (ConverterExpression × Option String)) (s : ConvState)
      (names : List String) (s' : ConvState),
      threadCasts (pairs.map (fun p => static_cast p.1 (p.2.bind tb))) s
        = .ok (names, s') →
      names.length = pairs.length
      ∧ s'.current_fn.stmts = s.current_fn.stmts
          ++ (names.zip pairs).filterMap (fun q =>
            match q.2.2.bind tb with
            | some ti =>
              if q.2.1.is_const then some (castLikeStmt q.1 q.2.1 ti)
              else Option.none
            | Option.none => Option.none)
      ∧ (∀ q ∈ names.zip pairs,
          ¬(q.2.1.is_const = true ∧ (q.2.2.bind tb).isSome = true) →
            q.1 = q.2.1.name) := by
  intro pairs
  induction pairs with
  | nil =>
    intro s names s' h
    simp only [List.map_nil, threadCasts] at h
    cases h
    simp
  | cons p rest ih =>
    intro s names s' h
    simp only [List.map_cons, threadCasts, bind, Except.bind] at h
    cases hc : static_cast p.1 (p.2.bind tb) s with
    | error e => rw [hc] at h; exact absurd h (by simp)
    | ok q =>
      obtain ⟨n, s1⟩ := q
      rw [hc] at h
      dsimp only at h
      cases hrest : threadCasts (rest.map (fun p => static_cast p.1 (p.2.bind tb))) s1 with
      | error e => rw [hrest] at h; exact absurd h (by simp)
      | ok q2 =>
        obtain ⟨ns, s2⟩ := q2
        rw [hrest] at h
        cases h
        obtain ⟨hlen, hstmts, hpass⟩ := ih s1 ns s2 hrest
        simp only [static_cast] at hc
        cases hbind : p.2.bind tb with
        | none =>
          rw [hbind] at hc
          cases hc
          refine ⟨by simp [hlen], ?_, ?_⟩
          · simp only [List.zip_cons_cons, List.filterMap_cons, hbind]
            exact hstmts
          · intro q hq hne
            rcases List.mem_cons.mp hq with h | h
            · rw [h]
            · exact hpass q h hne
        | some ti =>
          rw [hbind] at hc
          dsimp only at hc
          by_cases hconst : p.1.is_const = true
          · rw [if_pos hconst] at hc
            simp only [bind, Except.bind] at hc
            cases hg : generate_unique_name (p.1.name ++ "_cast") s with
            | error e => rw [hg] at hc; exact absurd hc (by simp)
            | ok q3 =>
              obtain ⟨tmp, sg⟩ := q3
              rw [hg] at hc
              cases hc
              obtain ⟨_, hcf⟩ := gen_framePres hg
              refine ⟨by simp [hlen], ?_, ?_⟩
              · simp only [List.zip_cons_cons, List.filterMap_cons, hbind,
                  if_pos hconst]
                rw [hstmts]
                simp [ConvState.emit, addStmt_stmts, hcf, castLikeStmt]
              · intro q hq hne
                rcases List.mem_cons.mp hq with h | h
                · exfalso
                  apply hne
                  rw [h]
                  exact ⟨hconst, by rw [hbind]; rfl⟩
                · exact hpass q h hne
          · rw [if_neg hconst] at hc
            cases hc
            refine ⟨by simp [hlen], ?_, ?_⟩
            · simp only [List.zip_cons_cons, List.filterMap_cons, hbind]
              rw [if_neg hconst]
              exact hstmts
            · intro q hq hne
              rcases List.mem_cons.mp hq with h | h
              · rw [h]
              · exact hpass q h hne

/-- C7: the static autocast specialization emits a type-matching CastLike
node for an argument if and only if the argument is a compile-time constant
and its type variable received a binding in the first pass.  The emitted
nodes are exactly one CastLike per such argument in argument order, casting
the constant to the bound expression's value; every other argument passes
through under its own name, so in particular a call whose operands are all
concrete-typed (non-constant) emits no cast node. -/
theorem static_cast_inputs_castlike_iff (schema : OpSchema)
    (args : List ConverterExpression) (s : ConvState) (names : List String)
    (s' : ConvState) (tbF : String → Option ConverterExpression)
    (pairs : List (ConverterExpression × Option String))
    (hp : cast_inputs_pass1 static_get_type_info schema.inputs args 0
      (fun _ => Option.none) = .ok (tbF, pairs))
    (h : static_cast_inputs (some schema) args s = .ok (names, s')) :
    names.length = pairs.length
    ∧ s'.current_fn.stmts = s.current_fn.stmts
        ++ (names.zip pairs).filterMap (fun q =>
          match q.2.2.bind tbF with
          | some ti =>
            if q.2.1.is_const then some (castLikeStmt q.1 q.2.1 ti)
            else Option.none
          | Option.none => Option.none)
    ∧ (∀ q ∈ names.zip pairs,
        ¬(q.2.1.is_const = true ∧ (q.2.2.bind tbF).isSome = true) →
          q.1 = q.2.1.name)
    ∧ ((∀ p ∈ pairs, p.1.is_const = false) →
        s'.current_fn.stmts = s.current_fn.stmts) := by
  have h2 : threadCasts (pairs.map (fun p => static_cast p.1 (p.2.bind tbF))) s
      = .ok (names, s') := by
    simpa only [static_cast_inputs, cast_inputs, hp, bind, Except.bind] using h
  obtain ⟨hlen, hstmts, hpass⟩ := threadCasts_static_spec tbF pairs s names s' h2
  refine ⟨hlen, hstmts, hpass, ?_⟩
  intro hall
  rw [hstmts]
  have : (names.zip pairs).filterMap (fun q =>
      match q.2.2.bind tbF with
      | some ti =>
        if q.2.1.is_const then some (castLikeStmt q.1 q.2.1 ti)
        else Option.none
      | Option.none => Option.none) = [] := by
    rw [List.filterMap_eq_nil_iff]
    intro q hq
    have hmem : q.2 ∈ pairs := (List.of_mem_zip hq).2
    have := hall q.2 hmem
    cases hb : q.2.2.bind tbF with
    | none => rfl
    | some ti => simp [this]
  rw [this, List.append_nil]

/-- Witness for C7: a two-operand homogeneous-typevar call with one constant
and one concrete-typed operand; exactly one CastLike node is emitted, casting
the constant to the concrete operand's value. -/
theorem static_cast_inputs_castlike_iff_witness :
    (["x_cast", "y"] : List String).length
      = [((⟨"x", .CONST⟩ : ConverterExpression), some "T"),
         ((⟨"y", .ANY⟩ : ConverterExpression), some "T")].length
    ∧ (ConvState.mk []
        (IRFunction.mk "f" [] [] [IRStmt.mk ["x_cast"] "CastLike" ["x", "y"] []])
        0 ["x_cast"] [[]] []).current_fn.stmts
      = (ConvState.mk [] (.new "f") 0 [] [[]] []).current_fn.stmts
        ++ ((["x_cast", "y"].zip
            [((⟨"x", .CONST⟩ : ConverterExpression), some "T"),
             ((⟨"y", .ANY⟩ : ConverterExpression), some "T")]).filterMap
          (fun q =>
            match q.2.2.bind
                (bindInsert (fun _ => Option.none) "T" ⟨"y", .ANY⟩) with
            | some ti =>
              if q.2.1.is_const then some (castLikeStmt q.1 q.2.1 ti)
              else Option.none
            | Option.none => Option.none))
    ∧ (∀ q ∈ ["x_cast", "y"].zip
          [((⟨"x", .CONST⟩ : ConverterExpression), some "T"),
           ((⟨"y", .ANY⟩ : ConverterExpression), some "T")],
        ¬(q.2.1.is_const = true ∧
            (q.2.2.bind (bindInsert (fun _ => Option.none) "T"
              (⟨"y", .ANY⟩ : ConverterExpression))).isSome = true) →
          q.1 = q.2.1.name)
    ∧ ((∀ p ∈ [((⟨"x", .CONST⟩ : ConverterExpression), some "T"),
          ((⟨"y", .ANY⟩ : ConverterExpression), some "T")],
          p.1.is_const = false) →
        (ConvState.mk []
          (IRFunction.mk "f" [] []
            [IRStmt.mk ["x_cast"] "CastLike" ["x", "y"] []])
          0 ["x_cast"] [[]] []).current_fn.stmts
          = (ConvState.mk [] (.new "f") 0 [] [[]] []).current_fn.stmts) :=
  static_cast_inputs_castlike_iff
    ⟨[⟨"T", .Single, true⟩, ⟨"T", .Single, true⟩]⟩
    [⟨"x", .CONST⟩, ⟨"y", .ANY⟩]
    ⟨[], .new "f", 0, [], [[]], []⟩
    ["x_cast", "y"]
    ⟨[], IRFunction.mk "f" [] []
      [IRStmt.mk ["x_cast"] "CastLike" ["x", "y"] []], 0, ["x_cast"], [[]], []⟩
    (bindInsert (fun _ => Option.none) "T" ⟨"y", .ANY⟩)
    [(⟨"x", .CONST⟩, some "T"), (⟨"y", .ANY⟩, some "T")]
    rfl rfl

/-! ## Properties of control-flow lowering -/

/-- Discipline satisfied by the translation of a statement list inside one
scope: the enclosing-function stack and globals are untouched, the scope
stack below the current frame is untouched (scope pushes and pops inside are
balanced), the used-name set only grows, and no output is declared on the
function under construction (output declaration happens only in the block
reconciliation that follows). -/
def BodyPres (body : ConvState → Except Err ConvState) : Prop :=
  ∀ s s', body s = .ok s' →
    s'.outer = s.outer ∧ s'.globals = s.globals ∧
      s'.locals.tail = s.locals.tail ∧ s.used_vars ⊆ s'.used_vars ∧
      s'.current_fn.outputs = s.current_fn.outputs

lemma mem_assigned_of_append {f f' : IRFunction} {o : String} {K : List IRStmt}
    (hst : f'.stmts = f.stmts ++ K) (h : o ∈ f.assigned_names) :
    o ∈ f'.assigned_names := by
  cases f with
  | mk n i out st =>
    cases f' with
    | mk n' i' out' st' =>
      simp only [IRFunction.assigned_names, IRFunction.stmts] at h ⊢
      simp only [IRFunction.stmts] at hst
      rw [hst]
      simp only [List.map_append, List.flatten_append, List.mem_append]
      exact Or.inl h

lemma mem_assigned (f : IRFunction) (o : String) :
    o ∈ f.assigned_names ↔ ∃ st ∈ f.stmts, o ∈ st.outputs := by
  cases f with
  | mk n i out st =>
    simp [IRFunction.assigned_names, IRFunction.stmts, List.mem_flatten,
      List.mem_map]

lemma block_output_for_spec {pvar : String} {s s' : ConvState}
    (h : block_output_for pvar s = .ok s') :
    FramePres s s' ∧ s'.current_fn.name = s.current_fn.name ∧
      s'.current_fn.inputs = s.current_fn.inputs ∧
      ∃ o K, s'.current_fn.outputs = s.current_fn.outputs ++ [o] ∧
        s'.current_fn.stmts = s.current_fn.stmts ++ K ∧
        o ∈ s'.current_fn.assigned_names := by
  simp only [block_output_for] at h
  cases hloc : s.locals with
  | nil => rw [hloc] at h; exact absurd h (by simp)
  | cons current rest =>
    rw [hloc] at h
    dsimp only at h
    cases hsc : scopeLookup current pvar with
    | some pv_val =>
      rw [hsc] at h
      dsimp only [bind, Except.bind] at h
      cases hto : to_onnx_var pv_val (some pvar) s with
      | error e => rw [hto] at h; exact absurd h (by simp)
      | ok p =>
        obtain ⟨output, s1⟩ := p
        rw [hto] at h
        dsimp only at h
        obtain ⟨hf1, hn1, hi1, ho1, L1, hL1, hops1⟩ := to_onnx_var_spec hto
        by_cases hmem : output ∈ s1.current_fn.assigned_names
        · rw [if_pos hmem] at h
          cases h
          refine ⟨⟨hf1.1, hf1.2.1, hf1.2.2.1, hf1.2.2.2⟩,
            by simp [ConvState.add_output, addOutput_name, hn1],
            by simp [ConvState.add_output, addOutput_inputs, hi1],
            output, L1, ?_, ?_, ?_⟩
          · simp [ConvState.add_output, addOutput_outputs, ho1]
          · simp [ConvState.add_output, addOutput_stmts, hL1]
          · simp only [ConvState.add_output, assigned_names_addOutput]
            exact hmem
        · rw [if_neg hmem] at h
          cases hcp : emit_copy output pvar s1 with
          | error e => rw [hcp] at h; exact absurd h (by simp)
          | ok p2 =>
            obtain ⟨output2, s2⟩ := p2
            rw [hcp] at h
            cases h
            obtain ⟨hf2, _, hn2, hi2, ho2, hst2⟩ := emit_copy_spec hcp
            refine ⟨FramePres_trans ⟨hf1.1, hf1.2.1, hf1.2.2.1, hf1.2.2.2⟩
                ⟨hf2.1, hf2.2.1, hf2.2.2.1, hf2.2.2.2⟩,
              by simp [ConvState.add_output, addOutput_name, hn2, hn1],
              by simp [ConvState.add_output, addOutput_inputs, hi2, hi1],
              output2, L1 ++ [IRStmt.mk [output2] "Identity" [output] []],
              ?_, ?_, ?_⟩
            · simp [ConvState.add_output, addOutput_outputs, ho2, ho1]
            · simp only [ConvState.add_output, addOutput_stmts, hst2, hL1,
                List.append_assoc]
            · simp only [ConvState.add_output, assigned_names_addOutput]
              rw [mem_assigned]
              refine ⟨IRStmt.mk [output2] "Identity" [output] [], ?_, ?_⟩
              · rw [hst2]
                simp
              · simp [IRStmt.outputs]
    | none =>
      rw [hsc] at h
      dsimp only at h
      cases hll : localsLookup s.locals pvar with
      | none =>
        rw [hloc] at hll
        rw [hll] at h
        exact absurd h (by simp)
      | some pv_val =>
        rw [hloc] at hll
        rw [hll] at h
        dsimp only [bind, Except.bind] at h
        cases hg : generate_unique_name pvar s with
        | error e => rw [hg] at h; exact absurd h (by simp)
        | ok p =>
          obtain ⟨ovar, s1⟩ := p
          rw [hg] at h
          dsimp only at h
          cases hto : to_onnx_var pv_val (some pvar) s1 with
          | error e => rw [hto] at h; exact absurd h (by simp)
          | ok p2 =>
            obtain ⟨src, s2⟩ := p2
            rw [hto] at h
            cases h
            obtain ⟨hfg, hcg⟩ := gen_framePres hg
            obtain ⟨hf1, hn1, hi1, ho1, L1, hL1, hops1⟩ := to_onnx_var_spec hto
            refine ⟨FramePres_trans hfg (FramePres_trans
                ⟨hf1.1, hf1.2.1, hf1.2.2.1, hf1.2.2.2⟩
                ⟨rfl, rfl, rfl, fun a ha => ha⟩),
              ?_, ?_, ovar, L1 ++ [IRStmt.mk [ovar] "Identity" [src] []],
              ?_, ?_, ?_⟩
            · simp [ConvState.add_output, ConvState.emit, addOutput_name,
                addStmt_name, hn1, hcg]
            · simp [ConvState.add_output, ConvState.emit, addOutput_inputs,
                addStmt_inputs, hi1, hcg]
            · simp [ConvState.add_output, ConvState.emit, addOutput_outputs,
                addStmt_outputs, ho1, hcg]
            · simp only [ConvState.add_output, ConvState.emit, addOutput_stmts,
                addStmt_stmts, hL1, hcg, List.append_assoc]
            · simp only [ConvState.add_output, ConvState.emit,
                assigned_names_addOutput, assigned_names_addStmt]
              simp [IRStmt.outputs]

lemma processLiveDefs_spec :
    ∀ (live : List String) (s s' : ConvState),
      processLiveDefs live s = .ok s' →
      FramePres s s' ∧ s'.current_fn.name = s.current_fn.name ∧
        s'.current_fn.inputs = s.current_fn.inputs ∧
        ∃ O K, s'.current_fn.outputs = s.current_fn.outputs ++ O ∧
          O.length = live.length ∧
          s'.current_fn.stmts = s.current_fn.stmts ++ K ∧
          ∀ o ∈ O, o ∈ s'.current_fn.assigned_names := by
  intro live
  induction live with
  | nil =>
    intro s s' h
    simp only [processLiveDefs] at h
    cases h
    exact ⟨FramePres_refl s, rfl, rfl, [], [], by simp, rfl, by simp, by simp⟩
  | cons pvar rest ih =>
    intro s s' h
    simp only [processLiveDefs, bind, Except.bind] at h
    cases hb : block_output_for pvar s with
    | error e => rw [hb] at h; exact absurd h (by simp)
    | ok s1 =>
      rw [hb] at h
      obtain ⟨hf1, hn1, hi1, o, K, ho1, hst1, hassigned⟩ := block_output_for_spec hb
      obtain ⟨hf2, hn2, hi2, O, K2, ho2, hOlen, hst2, hass2⟩ := ih s1 s' h
      refine ⟨FramePres_trans hf1 hf2, hn2.trans hn1, hi2.trans hi1,
        o :: O, K ++ K2, ?_, by simp [hOlen], ?_, ?_⟩
      · rw [ho2, ho1]
        simp
      · rw [hst2, hst1, List.append_assoc]
      · intro x hx
        rcases List.mem_cons.mp hx with hxo | hxO
        · rw [hxo]
          exact mem_assigned_of_append hst2 hassigned
        · exact hass2 x hxO

/-- Core lemma for conditional lowering: a successful `translate_block` run
with a scope-disciplined body leaves the enclosing state intact (current
function, stack, scopes, globals; the used-name set only grows) and produces
a subgraph declaring exactly one output per live-out name, each of which is a
name assigned inside the subgraph. -/
lemma translate_block_spec {body : ConvState → Except Err ConvState}
    {name : String} {live : List String} {s : ConvState} {g : IRFunction}
    {s' : ConvState} (hb : BodyPres body)
    (h : translate_block body name live s = .ok (g, s')) :
    s'.current_fn = s.current_fn ∧ s'.outer = s.outer ∧
      s'.locals = s.locals ∧ s'.globals = s.globals ∧
      s.used_vars ⊆ s'.used_vars ∧
      g.outputs.length = live.length ∧
      ∀ o ∈ g.outputs, o ∈ g.assigned_names := by
  simp only [translate_block, bind, Except.bind] at h
  cases hbody : body (enter_scope name s) with
  | error e => rw [hbody] at h; exact absurd h (by simp)
  | ok s1 =>
    rw [hbody] at h
    dsimp only at h
    cases hpl : processLiveDefs live s1 with
    | error e => rw [hpl] at h; exact absurd h (by simp)
    | ok s2 =>
      rw [hpl] at h
      dsimp only at h
      obtain ⟨houter1, hglob1, hltail1, hused1, hout1⟩ :=
        hb (enter_scope name s) s1 hbody
      obtain ⟨hf2, hn2, hi2, O, K, ho2, hOlen, hst2, hass2⟩ :=
        processLiveDefs_spec live s1 s2 hpl
      simp only [exit_scope] at h
      cases houter2 : s2.outer with
      | nil =>
        rw [houter2] at h
        exact absurd h (by simp)
      | cons cf restouter =>
        rw [houter2] at h
        cases h
        have heq : cf :: restouter = s.current_fn :: s.outer := by
          rw [← houter2, hf2.1, houter1]
          rfl
        have hcf : cf = s.current_fn := (List.cons.injEq _ _ _ _ ▸ heq).1
        have hro : restouter = s.outer := (List.cons.injEq _ _ _ _ ▸ heq).2
        refine ⟨hcf, hro, ?_, ?_, ?_, ?_, ?_⟩
        · show s2.locals.tail = s.locals
          rw [hf2.2.1, hltail1]
          rfl
        · show s2.globals = s.globals
          rw [hf2.2.2.1, hglob1]
          rfl
        · show s.used_vars ⊆ s2.used_vars
          intro a ha
          exact hf2.2.2.2 (hused1 ha)
        · show s2.current_fn.outputs.length = live.length
          rw [ho2, hout1]
          simp only [enter_scope, IRFunction.new, IRFunction.outputs]
          simpa using hOlen
        · show ∀ o ∈ s2.current_fn.outputs, o ∈ s2.current_fn.assigned_names
          intro o ho
          rw [ho2, hout1] at ho
          simp only [enter_scope, IRFunction.new, IRFunction.outputs,
            List.nil_append] at ho
          exact hass2 o ho

lemma lookup_congr {s1 s : ConvState} (hl : s1.locals = s.locals)
    (hg : s1.globals = s.globals) (n : String) :
    s1.lookup n = s.lookup n := by
  simp [ConvState.lookup, hl, hg]

lemma lookup_bindVar_self (s : ConvState) (n : String) (v : BindingVal) :
    (s.bindVar n v).lookup n = some v := by
  cases hl : s.locals with
  | nil =>
    simp [ConvState.bindVar, ConvState.lookup, localsLookup, scopeLookup, hl,
      List.find?]
  | cons sc rest =>
    simp [ConvState.bindVar, ConvState.lookup, localsLookup, scopeLookup, hl,
      List.find?]

lemma lookup_bindVar_other {m n : String} (s : ConvState) (v : BindingVal)
    (h : m ≠ n) : (s.bindVar n v).lookup m = s.lookup m := by
  have h2 : n ≠ m := Ne.symm h
  cases hl : s.locals with
  | nil =>
    simp [ConvState.bindVar, ConvState.lookup, localsLookup, scopeLookup, hl,
      List.find?, h2]
  | cons sc rest =>
    simp [ConvState.bindVar, ConvState.lookup, localsLookup, scopeLookup, hl,
      List.find?, h2]

lemma renameAll_spec (kind : DynamicKind) :
    ∀ (xs : List String) (s : ConvState) (rs : List String) (s' : ConvState),
      renameAll kind xs s = .ok (rs, s') →
      rs.length = xs.length ∧ s'.outer = s.outer ∧
        s'.current_fn = s.current_fn ∧ s'.globals = s.globals ∧
        s.used_vars ⊆ s'.used_vars ∧ rs.Nodup ∧
        (∀ r ∈ rs, r ∉ s.used_vars ∧ r ∈ s'.used_vars) ∧
        (∀ n, n ∉ xs → s'.lookup n = s.lookup n) ∧
        (xs.Nodup → ∀ (k : Nat) (hk : k < xs.length) (hk2 : k < rs.length),
          s'.lookup (xs.get ⟨k, hk⟩)
            = some (.dynamic (rs.get ⟨k, hk2⟩) kind)) := by
  intro xs
  induction xs with
  | nil =>
    intro s rs s' h
    simp only [renameAll] at h
    cases h
    refine ⟨rfl, rfl, rfl, rfl, fun _ ha => ha, List.nodup_nil, by simp,
      fun _ _ => rfl, ?_⟩
    intro _ k hk
    exact absurd hk (by simp)
  | cons x rest ih =>
    intro s rs s' h
    simp only [renameAll, bind, Except.bind] at h
    cases hg : generate_unique_name x s with
    | error e => rw [hg] at h; exact absurd h (by simp)
    | ok p =>
      obtain ⟨r, s1⟩ := p
      rw [hg] at h
      dsimp only at h
      cases hrec : renameAll kind rest (s1.bindVar x (.dynamic r kind)) with
      | error e => rw [hrec] at h; exact absurd h (by simp)
      | ok p2 =>
        obtain ⟨rs2, s3⟩ := p2
        rw [hrec] at h
        cases h
        obtain ⟨hru, hused1, houter1, hcf1, hloc1, hglob1⟩ := gen_ok hg
        obtain ⟨hlen, houter3, hcf3, hglob3, hsub3, hnd, hfresh, hpres, hidx⟩ :=
          ih (s1.bindVar x (.dynamic r kind)) rs2 s3 hrec
        have hs2used : (s1.bindVar x (.dynamic r kind)).used_vars
            = r :: s.used_vars := by
          simp [ConvState.bindVar, hused1]
        refine ⟨by simp [hlen], ?_, ?_, ?_, ?_, ?_, ?_, ?_, ?_⟩
        · rw [houter3]
          simp [ConvState.bindVar, houter1]
        · rw [hcf3]
          simp [ConvState.bindVar, hcf1]
        · rw [hglob3]
          simp [ConvState.bindVar, hglob1]
        · intro a ha
          apply hsub3
          rw [hs2used]
          exact List.mem_cons_of_mem _ ha
        · refine List.nodup_cons.mpr ⟨?_, hnd⟩
          intro hmem
          have := (hfresh r hmem).1
          rw [hs2used] at this
          exact this (List.mem_cons_self _ _)
        · intro r2 hr2
          rcases List.mem_cons.mp hr2 with hh | hh
          · subst hh
            refine ⟨hru, ?_⟩
            apply hsub3
            rw [hs2used]
            exact List.mem_cons_self _ _
          · obtain ⟨hnotin, hin⟩ := hfresh r2 hh
            rw [hs2used] at hnotin
            exact ⟨fun hc => hnotin (List.mem_cons_of_mem _ hc), hin⟩
        · intro n hn
          have hn1 : n ∉ rest := fun hc => hn (List.mem_cons_of_mem _ hc)
          have hnx : n ≠ x := fun hc => hn (by rw [hc]; exact List.mem_cons_self _ _)
          rw [hpres n hn1, lookup_bindVar_other s1 _ hnx, lookup_congr hloc1 hglob1]
        · intro hnodup k hk hk2
          obtain ⟨hxnotin, hrestnd⟩ := List.nodup_cons.mp hnodup
          cases k with
          | zero =>
            simp only [List.get]
            rw [hpres x hxnotin, lookup_bindVar_self]
          | succ k2 =>
            simp only [List.get]
            exact hidx hrestnd k2 (by simpa using hk) (by simpa using hk2)

/-- C4: conditional lowering over a supplied live-out list of size N (whose
translation succeeds, so every live-out name is bound in the branch or an
outer scope) emits exactly one If control node after the test translation,
whose output list is N freshly generated names bound to the live-out names in
their given order, and whose two branch subgraphs each declare exactly N
outputs, every one a name assigned inside that subgraph (an identity copy is
inserted whenever the bound value is not). -/
theorem translate_if_stmt_spec (live_defs : List String)
    (translateTest : ConvState → Except Err (String × ConvState))
    (thenBody elseBody : ConvState → Except Err ConvState)
    (s s' : ConvState) (hThen : BodyPres thenBody) (hElse : BodyPres elseBody)
    (h : translate_if_stmt live_defs translateTest thenBody elseBody s
      = .ok s') :
    ∃ (test : String) (s1 : ConvState) (renamed : List String)
      (thenG elseG : IRFunction),
      translateTest s = .ok (test, s1)
      ∧ s'.current_fn.stmts = s1.current_fn.stmts
          ++ [IRStmt.mk renamed "If" [test]
              [("then_branch", .graphA thenG), ("else_branch", .graphA elseG)]]
      ∧ renamed.length = live_defs.length
      ∧ renamed.Nodup
      ∧ (∀ r ∈ renamed, r ∉ s1.used_vars)
      ∧ thenG.outputs.length = live_defs.length
      ∧ elseG.outputs.length = live_defs.length
      ∧ (∀ o ∈ thenG.outputs, o ∈ thenG.assigned_names)
      ∧ (∀ o ∈ elseG.outputs, o ∈ elseG.assigned_names)
      ∧ (live_defs.Nodup →
          ∀ (k : Nat) (hk : k < live_defs.length) (hk2 : k < renamed.length),
            s'.lookup (live_defs.get ⟨k, hk⟩)
              = some (.dynamic (renamed.get ⟨k, hk2⟩) .Intermediate)) := by
  simp only [translate_if_stmt, bind, Except.bind] at h
  cases ht : translateTest s with
  | error e => rw [ht] at h; exact absurd h (by simp)
  | ok p =>
    obtain ⟨test, s1⟩ := p
    rw [ht] at h
    dsimp only at h
    cases hb1 : translate_block thenBody "thenGraph" live_defs s1 with
    | error e => rw [hb1] at h; exact absurd h (by simp)
    | ok p2 =>
      obtain ⟨thenG, s2⟩ := p2
      rw [hb1] at h
      dsimp only at h
      cases hb2 : translate_block elseBody "elseGraph" live_defs s2 with
      | error e => rw [hb2] at h; exact absurd h (by simp)
      | ok p3 =>
        obtain ⟨elseG, s3⟩ := p3
        rw [hb2] at h
        dsimp only at h
        cases hr : renameAll .Intermediate live_defs s3 with
        | error e => rw [hr] at h; exact absurd h (by simp)
        | ok p4 =>
          obtain ⟨renamed, s4⟩ := p4
          rw [hr] at h
          dsimp only at h
          by_cases hre : renamed = []
          · rw [if_pos hre] at h
            exact absurd h (by simp)
          · rw [if_neg hre] at h
            by_cases hrt : renamed = [test]
            · rw [if_pos hrt] at h
              exact absurd h (by simp)
            · rw [if_neg hrt] at h
              cases h
              obtain ⟨hcf2, _, _, _, hused2, hlen2, hass2⟩ :=
                translate_block_spec hThen hb1
              obtain ⟨hcf3, _, _, _, hused3, hlen3, hass3⟩ :=
                translate_block_spec hElse hb2
              obtain ⟨hlen4, _, hcf4, _, _, hnd4, hfresh4, _, hidx4⟩ :=
                renameAll_spec .Intermediate live_defs s3 renamed s4 hr
              refine ⟨test, s1, renamed, thenG, elseG, rfl, ?_, hlen4, hnd4,
                ?_, hlen2, hlen3, hass2, hass3, ?_⟩
              · simp only [ConvState.emit, addStmt_stmts, hcf4, hcf3, hcf2]
              · intro r hrr
                have hn3 := (hfresh4 r hrr).1
                intro hc
                exact hn3 (hused3 (hused2 hc))
              · intro hnodup k hk hk2
                have : (s4.emit renamed "If" [test]
                    [("then_branch", .graphA thenG),
                     ("else_branch", .graphA elseG)]).lookup
                      (live_defs.get ⟨k, hk⟩) = s4.lookup (live_defs.get ⟨k, hk⟩) :=
                  lookup_congr rfl rfl _
                rw [this]
                exact hidx4 hnodup k hk hk2

/-- Witness for C4: a conditional over live-out list `["a"]` where `a` is
bound only in the outer scope, with empty branch bodies; both branches get
exactly one output via an identity copy and one If node is emitted. -/
theorem translate_if_stmt_spec_witness :
    ∃ s' : ConvState,
      translate_if_stmt ["a"] (fun s => .ok ("c", s)) (fun s => .ok s)
          (fun s => .ok s)
          ⟨[], .new "f", 0, ["a0"], [[("a", .dynamic "a0" .Input)]], []⟩
        = .ok s'
      ∧ ∃ (test : String) (s1 : ConvState) (renamed : List String)
          (thenG elseG : IRFunction),
          (fun s => (.ok ("c", s) : Except Err (String × ConvState)))
              (⟨[], .new "f", 0, ["a0"], [[("a", .dynamic "a0" .Input)]], []⟩
                : ConvState)
            = .ok (test, s1)
          ∧ s'.current_fn.stmts = s1.current_fn.stmts
              ++ [IRStmt.mk renamed "If" [test]
                  [("then_branch", .graphA thenG),
                   ("else_branch", .graphA elseG)]]
          ∧ renamed.length = (["a"] : List String).length
          ∧ renamed.Nodup
          ∧ (∀ r ∈ renamed, r ∉ s1.used_vars)
          ∧ thenG.outputs.length = (["a"] : List String).length
          ∧ elseG.outputs.length = (["a"] : List String).length
          ∧ (∀ o ∈ thenG.outputs, o ∈ thenG.assigned_names)
          ∧ (∀ o ∈ elseG.outputs, o ∈ elseG.assigned_names)
          ∧ ((["a"] : List String).Nodup →
              ∀ (k : Nat) (hk : k < (["a"] : List String).length)
                (hk2 : k < renamed.length),
                s'.lookup ((["a"] : List String).get ⟨k, hk⟩)
                  = some (.dynamic (renamed.get ⟨k, hk2⟩) .Intermediate)) := by
  refine ⟨_, rfl, ?_⟩
  exact translate_if_stmt_spec ["a"] (fun s => .ok ("c", s)) (fun s => .ok s)
    (fun s => .ok s)
    ⟨[], .new "f", 0, ["a0"], [[("a", .dynamic "a0" .Input)]], []⟩ _
    (fun s s' h => by cases h; exact ⟨rfl, rfl, rfl, fun _ ha => ha, rfl⟩)
    (fun s s' h => by cases h; exact ⟨rfl, rfl, rfl, fun _ ha => ha, rfl⟩)
    rfl

lemma addLoopStateInputs_outer :
    ∀ (vars : List String) (s s' : ConvState),
      addLoopStateInputs vars s = .ok s' → s'.outer = s.outer := by
  intro vars
  induction vars with
  | nil =>
    intro s s' h
    simp only [addLoopStateInputs] at h
    cases h
    rfl
  | cons pv rest ih =>
    intro s s' h
    simp only [addLoopStateInputs, bind, Except.bind] at h
    cases hg : generate_unique_name pv s with
    | error e => rw [hg] at h; exact absurd h (by simp)
    | ok p =>
      obtain ⟨ov, s1⟩ := p
      rw [hg] at h
      dsimp only at h
      have := ih _ _ h
      rw [this]
      simp [ConvState.add_input, ConvState.bindVar, (gen_ok hg).2.2.1]

lemma addLoopStateOutputs_outer :
    ∀ (vars : List String) (s s' : ConvState),
      addLoopStateOutputs vars s = .ok s' → s'.outer = s.outer := by
  intro vars
  induction vars with
  | nil =>
    intro s s' h
    simp only [addLoopStateOutputs] at h
    cases h
    rfl
  | cons pv rest ih =>
    intro s s' h
    simp only [addLoopStateOutputs, bind, Except.bind] at h
    cases hp : py_var_to_onnx_var pv s with
    | error e => rw [hp] at h; exact absurd h (by simp)
    | ok p =>
      obtain ⟨ov, s1⟩ := p
      rw [hp] at h
      dsimp only at h
      have ho1 : s1.outer = s.outer := (py_var_to_onnx_var_spec hp).1.1
      by_cases hmem : ov ∈ s1.current_fn.assigned_names
      · rw [if_pos hmem] at h
        dsimp only [pure, Except.pure] at h
        have := ih _ _ h
        rw [this]
        simp [ConvState.add_output, ho1]
      · rw [if_neg hmem] at h
        cases hc : emit_copy ov pv s1 with
        | error e => rw [hc] at h; exact absurd h (by simp)
        | ok p2 =>
          obtain ⟨ov2, s2⟩ := p2
          rw [hc] at h
          dsimp only [pure, Except.pure] at h
          have := ih _ _ h
          rw [this]
          have ho2 : s2.outer = s1.outer := (emit_copy_spec hc).1.1
          simp [ConvState.add_output, ho2, ho1]

lemma loopStateInitialValues_spec :
    ∀ (vars : List String) (s : ConvState) (inits : List String)
      (s' : ConvState),
      loopStateInitialValues vars s = .ok (inits, s') →
      AppendsOps s s' ["Constant"] ∧ inits.length = vars.length := by
  intro vars
  induction vars with
  | nil =>
    intro s inits s' h
    simp only [loopStateInitialValues] at h
    cases h
    exact ⟨AppendsOps_refl s _, rfl⟩
  | cons pv rest ih =>
    intro s inits s' h
    simp only [loopStateInitialValues, bind, Except.bind] at h
    cases hp : py_var_to_onnx_var pv s with
    | error e => rw [hp] at h; exact absurd h (by simp)
    | ok p =>
      obtain ⟨v, s1⟩ := p
      rw [hp] at h
      dsimp only at h
      cases hrec : loopStateInitialValues rest s1 with
      | error e => rw [hrec] at h; exact absurd h (by simp)
      | ok p2 =>
        obtain ⟨vs, s2⟩ := p2
        rw [hrec] at h
        cases h
        obtain ⟨ha, hlen⟩ := ih s1 vs s2 hrec
        exact ⟨AppendsOps_trans (py_var_to_onnx_var_spec hp) ha,
          by simp [hlen]⟩

lemma except_bind_ok {α β : Type} {x : Except Err α} {f : α → Except Err β}
    {r : β} (h : (x >>= f) = .ok r) : ∃ a, x = .ok a ∧ f a = .ok r := by
  cases x with
  | error e => exact absurd h (by simp [bind, Except.bind])
  | ok a => exact ⟨a, rfl, by simpa [bind, Except.bind] using h⟩

lemma exit_scope_ok {s : ConvState} {f : IRFunction} {rest : List IRFunction}
    (h : s.outer = f :: rest) :
    exit_scope s = .ok (s.current_fn,
      { s with current_fn := f, outer := rest, locals := s.locals.tail }) := by
  simp [exit_scope, h]

/-- C5: lowering a bounded counting loop with state-variable list S emits,
after the bound translation, only Constant nodes plus exactly one Loop
control node whose input list is the bound, the initial condition, and one
initial value per state variable — arity 2 + |S| — and whose output list has
exactly |S| freshly renamed loop-carried results. -/
theorem translate_loop_stmt_spec (p_loop_var : String)
    (translateBound : ConvState → Except Err (String × ConvState))
    (S : List String)
    (bodyRun : ConvState → Except Err (ConvState × Option String))
    (s s' : ConvState)
    (hbody : ∀ (s1 : ConvState) (s2 : ConvState) (c : Option String),
      bodyRun s1 = .ok (s2, c) → s2.outer = s1.outer)
    (h : translate_loop_stmt p_loop_var translateBound S bodyRun s = .ok s') :
    ∃ (bound : String) (s1 : ConvState) (trueName : String) (L : List IRStmt)
      (inits renamed : List String) (bodyG : IRFunction),
      translateBound s = .ok (bound, s1)
      ∧ s'.current_fn.stmts = s1.current_fn.stmts ++ L
          ++ [IRStmt.mk renamed "Loop" ([bound, trueName] ++ inits)
              [("body", .graphA bodyG)]]
      ∧ (∀ st ∈ L, st.op = "Constant")
      ∧ inits.length = S.length
      ∧ ([bound, trueName] ++ inits).length = 2 + S.length
      ∧ renamed.length = S.length := by
  simp only [translate_loop_stmt] at h
  obtain ⟨⟨o_loop_bound, s1⟩, htb, h⟩ := except_bind_ok h
  obtain ⟨⟨o_cond_var, s2⟩, hg1, h⟩ := except_bind_ok h
  obtain ⟨⟨o_true, s3⟩, hec, h⟩ := except_bind_ok h
  obtain ⟨⟨o_loop_var, s4⟩, hg2, h⟩ := except_bind_ok h
  obtain ⟨s5, hsi, h⟩ := except_bind_ok h
  obtain ⟨⟨s6, condition_name⟩, hbr, h⟩ := except_bind_ok h
  obtain ⟨⟨o_cond_out, s7⟩, hg3, h⟩ := except_bind_ok h
  obtain ⟨s8, hso, h⟩ := except_bind_ok h
  obtain ⟨⟨bodyG, s9⟩, hex, h⟩ := except_bind_ok h
  obtain ⟨⟨stateInits, s10⟩, hiv, h⟩ := except_bind_ok h
  simp only [emit_loop] at h
  obtain ⟨⟨onnx_outputs, s11⟩, hra, h⟩ := except_bind_ok h
  cases h
  have houter8 : s8.outer = s3.current_fn :: s3.outer := by
    have h8 := addLoopStateOutputs_outer S _ _ hso
    have h7 := (gen_ok hg3).2.2.1
    have h6 := hbody s5 s6 condition_name hbr
    have h5 := addLoopStateInputs_outer S _ _ hsi
    have h4 := (gen_ok hg2).2.2.1
    rw [h8]
    simp only [ConvState.emit, ConvState.add_output]
    rw [h7, h6, h5]
    simp only [ConvState.add_input, ConvState.bindVar]
    rw [h4]
    cases hloc : (enter_scope "loop_body" s3).locals with
    | nil => simp [enter_scope] at hloc
    | cons a b => simp [enter_scope]
  rw [exit_scope_ok houter8] at hex
  injection hex with hx
  have hbodyG : s8.current_fn = bodyG := congrArg Prod.fst hx
  have h2 : ({ s8 with
      current_fn := s3.current_fn
      outer := s3.outer
      locals := s8.locals.tail } : ConvState) = s9 := congrArg Prod.snd hx
  have hs9cf : s9.current_fn = s3.current_fn := by
    rw [← h2]
  obtain ⟨hconstApp, hinitlen⟩ :=
    loopStateInitialValues_spec S _ stateInits s10 hiv
  obtain ⟨hralen, _, hracf, _⟩ :=
    renameAll_spec .Output S s10 onnx_outputs s11 hra
  obtain ⟨_, _, _, _, L9, hL9, hops9⟩ := hconstApp
  obtain ⟨hecapp, t, hect⟩ := emit_const_spec hec
  have hcf2 : s2.current_fn = s1.current_fn := (gen_ok hg1).2.2.2.1
  refine ⟨o_loop_bound, s1, o_true,
    [IRStmt.mk [o_true] "Constant" [] [("value", .tensorA t)]] ++ L9,
    stateInits, onnx_outputs, bodyG, htb, ?_, ?_, hinitlen,
    by simp [hinitlen]; omega, by rw [hralen]⟩
  · simp only [ConvState.emit, addStmt_stmts, hracf]
    rw [hL9]
    dsimp only
    rw [hs9cf, hect, hcf2]
    simp [List.append_assoc]
  · intro st hst
    rcases List.mem_append.mp hst with hh | hh
    · rcases List.mem_singleton.mp hh with rfl
      rfl
    · have := hops9 st hh
      simpa using this
/-- Witness for C5: a counting loop over one state variable `x` bound in the
enclosing scope, with an empty body; the Loop node has 3 inputs and 1
output. -/
theorem translate_loop_stmt_spec_witness :
    ∃ s' : ConvState,
      translate_loop_stmt "i" (fun s => .ok ("n", s)) ["x"]
          (fun s => .ok (s, Option.none))
          ⟨[], .new "f", 0, [], [[("x", .dynamic "x0" .Input)]], []⟩
        = .ok s'
      ∧ ∃ (bound : String) (s1 : ConvState) (trueName : String)
          (L : List IRStmt) (inits renamed : List String)
          (bodyG : IRFunction),
          (fun s => (.ok ("n", s) : Except Err (String × ConvState)))
              (⟨[], .new "f", 0, [], [[("x", .dynamic "x0" .Input)]], []⟩
                : ConvState)
            = .ok (bound, s1)
          ∧ s'.current_fn.stmts = s1.current_fn.stmts ++ L
              ++ [IRStmt.mk renamed "Loop" ([bound, trueName] ++ inits)
                  [("body", .graphA bodyG)]]
          ∧ (∀ st ∈ L, st.op = "Constant")
          ∧ inits.length = (["x"] : List String).length
          ∧ ([bound, trueName] ++ inits).length
              = 2 + (["x"] : List String).length
          ∧ renamed.length = (["x"] : List String).length := by
  refine ⟨_, rfl, ?_⟩
  exact translate_loop_stmt_spec "i" (fun s => .ok ("n", s)) ["x"]
    (fun s => .ok (s, Option.none))
    ⟨[], .new "f", 0, [], [[("x", .dynamic "x0" .Input)]], []⟩ _
    (fun s1 s2 c h => by cases h; rfl) rfl

/-! ## Subscript lowering -/

/-- One start/stop/step component of a slice expression, as classified by
`is_constant_expr`: a compile-time integer constant, or a non-constant
expression already bound to a (tensor-valued) python name. -/
inductive SliceComp where
  | constC (n : Int)
  | dynC (name : String)

/-- One axis specifier of a subscript expression: a slice, a compile-time
integer constant, or a non-constant (tensor-valued) specifier bound to a
python name. -/
inductive IndexSpec where
  | sliceI (lower upper step : Option SliceComp)
  | constI (n : Int)
  | dynI (name : String)

/-- An entry of the sequential-gather work list: a non-constant specifier or
a leftover scalar-constant specifier. -/
inductive GatherIdx where
  | dynG (name : String)
  | constG (n : Int)

/-- Embedding of the `const_1d` closure of `translate_subscript_expr`: a
cached 1-D integer Constant, emitted once per distinct value. -/
def const_1d (value : Int) (nm : Option String) (cc : List (Int × String))
    (s : ConvState) : Except Err (String × List (Int × String) × ConvState) :=
  match cc.find? (fun p => p.1 = value) with
  | some p => .ok (p.2, cc, s)
  | Option.none => do
    let (n, s) ← emit_const (.list [.int value]) nm s
    .ok (n, (value, n) :: cc, s)

/-- Maximum 64-bit int, used for default slice bounds. -/
def maxint : Int := (1 <<< 63) - 1

/-- Minimum 64-bit int, used for default slice bounds. -/
def minint : Int := -(1 <<< 63)

/-- Embedding of `translate_slice_component`: an absent component falls back
to the direction-dependent default (a RuntimeError when the direction is
unknown), a constant is materialized via the constant cache, and a dynamic
component is reshaped to a 1-element tensor. -/
def translate_slice_component (node_arg : Option SliceComp)
    (default_value : Option Int) (cc : List (Int × String)) (s : ConvState) :
    Except Err ((String × Option Int) × List (Int × String) × ConvState) :=
  match node_arg with
  | Option.none =>
    match default_value with
    | Option.none => .error .runtimeErr
    | some dv => do
      let (n, cc, s) ← const_1d dv Option.none cc s
      .ok ((n, some dv), cc, s)
  | some (.constC cst) => do
    let (n, cc, s) ← const_1d cst Option.none cc s
    .ok ((n, some cst), cc, s)
  | some (.dynC pyname) => do
    let (name, s) ← py_var_to_onnx_var pyname s
    let (reshaped, s) ← generate_unique_name (name ++ "_reshaped") s
    let (one, cc, s) ← const_1d 1 Option.none cc s
    let s := s.emit [reshaped] "Reshape" [name, one] []
    .ok ((reshaped, (Option.none : Option Int)), cc, s)

/-- Embedding of `translate_slice`: translate the step first, then the
bounds with direction-dependent defaults. -/
def translate_slice (lower upper step : Option SliceComp)
    (cc : List (Int × String)) (s : ConvState) :
    Except Err ((String × String × String) × List (Int × String) × ConvState) := do
  let ((step_name, stepv), cc, s) ← translate_slice_component step (some 1) cc s
  match stepv with
  | Option.none => do
    let ((lower_name, _), cc, s) ←
      translate_slice_component lower Option.none cc s
    let ((upper_name, _), cc, s) ←
      translate_slice_component upper Option.none cc s
    .ok ((lower_name, upper_name, step_name), cc, s)
  | some st =>
    if 0 < st then do
      let ((lower_name, _), cc, s) ←
        translate_slice_component lower (some 0) cc s
      let ((upper_name, _), cc, s) ←
        translate_slice_component upper (some maxint) cc s
      .ok ((lower_name, upper_name, step_name), cc, s)
    else do
      let ((lower_name, _), cc, s) ←
        translate_slice_component lower (some maxint) cc s
      let ((upper_name, _), cc, s) ←
        translate_slice_component upper (some minint) cc s
      .ok ((lower_name, upper_name, step_name), cc, s)

/-- The per-axis loop of the slice branch: materialize the axis constant and
the three slice components of every sliced axis, collecting the start/end/
axis/step value names in order. -/
def sliceLoop :
    List (Nat × (Option SliceComp × Option SliceComp × Option SliceComp)) →
    List (Int × String) → ConvState →
    Except Err ((List String × List String × List String × List String) ×
      List (Int × String) × ConvState)
  | [], cc, s => .ok (([], [], [], []), cc, s)
  | (axis, sl) :: rest, cc, s => do
    let (axis_var, cc, s) ← const_1d (Int.ofNat axis) Option.none cc s
    let ((l, u, st), cc, s) ← translate_slice sl.1 sl.2.1 sl.2.2 cc s
    let ((ls, us, axs, sts), cc, s) ← sliceLoop rest cc s
    .ok ((l :: ls, u :: us, axis_var :: axs, st :: sts), cc, s)

/-- Index-value translation inside the gather loop (`translate_expr` of the
specifier): a bound name for a dynamic specifier, a fresh scalar Constant for
a leftover scalar-constant specifier. -/
def translateGatherIdx (idx : GatherIdx) (s : ConvState) :
    Except Err (String × ConvState) :=
  match idx with
  | .dynG pyname => py_var_to_onnx_var pyname s
  | .constG n => emit_const (.int n) Option.none s

/-- The sequential-gather loop of `translate_subscript_expr`: one single-axis
Gather per remaining specifier in order, threading the intermediate result,
the last one writing the requested target name. -/
def gatherLoop (var_name target : String) (last_axis : Nat) :
    List (Nat × GatherIdx) → String → ConvState →
    Except Err (String × ConvState)
  | [], result, s => .ok (result, s)
  | (axis, idx) :: rest, result, s => do
    let (index_value, s) ← translateGatherIdx idx s
    let (gathered, s) ←
      if axis ≠ last_axis then
        generate_unique_name (var_name ++ "_axis_" ++ Nat.repr axis) s
      else .ok (target, s)
    let s := s.emit [gathered] "Gather" [result, index_value]
      [("axis", .intA (Int.ofNat axis))]
    gatherLoop var_name target last_axis rest gathered s

/-- Embedding of `translate_subscript_expr` over classified axis specifiers
(the subscripted value is already translated to `var_name`).  Specifiers are
partitioned into sliced, scalar-constant and non-scalar; with any slice or
more than one scalar constant, scalars are rewritten as unit-length slices
flagged for a final squeeze and all sliced axes are lowered to one Slice
node (concatenating the per-axis vectors when there is more than one axis),
followed by one Squeeze node when any axis was a scalar; remaining
non-scalar/scalar specifiers lower to sequential single-axis Gather nodes,
the last writing the requested target name. -/
def translate_subscript_expr (var_name : String) (target0 : Option String)
    (indices : List IndexSpec) (s : ConvState) :
    Except Err (String × ConvState) := do
  let (target, s) ← generate_unique_name
    (target0.getD (var_name ++ "_subscripted")) s
  let sliced_indices := indices.enum.filterMap (fun p =>
    match p.2 with
    | .sliceI l u st =>
      if l.isNone ∧ u.isNone ∧ st.isNone then Option.none
      else some (p.1, (l, u, st))
    | _ => Option.none)
  let scalar_indices := indices.enum.filterMap (fun p =>
    match p.2 with
    | .constI n => some (p.1, n)
    | _ => Option.none)
  let non_scalar_indices := indices.enum.filterMap (fun p =>
    match p.2 with
    | .dynI nm => some (p.1, GatherIdx.dynG nm)
    | _ => Option.none)
  if sliced_indices.isEmpty ∧ scalar_indices.isEmpty ∧
      non_scalar_indices.isEmpty then
    let s := s.emit [target] "Identity" [var_name] []
    .ok (target, s)
  else do
    let (result, scalar_indices2, s) ←
      if ¬sliced_indices.isEmpty ∨ 1 < scalar_indices.length then do
        let squeezed_axes := scalar_indices.map (fun q => q.1)
        let sliced2 := sliced_indices ++ scalar_indices.map (fun q =>
          (q.1, (some (SliceComp.constC q.2), some (SliceComp.constC (q.2 + 1)),
            some (SliceComp.constC 1))))
        let ((starts, ends, axes, steps), _, s) ← sliceLoop sliced2 [] s
        let (start_name, end_name, axes_name, steps_name, s) ←
          if 1 < starts.length then do
            let (start_name, s) ← generate_unique_name (var_name ++ "_start") s
            let s := s.emit [start_name] "Concat" starts [("axis", .intA 0)]
            let (end_name, s) ← generate_unique_name (var_name ++ "_end") s
            let s := s.emit [end_name] "Concat" ends [("axis", .intA 0)]
            let (axes_name, s) ← generate_unique_name (var_name ++ "_axis") s
            let s := s.emit [axes_name] "Concat" axes [("axis", .intA 0)]
            let (steps_name, s) ← generate_unique_name (var_name ++ "_step") s
            let s := s.emit [steps_name] "Concat" steps [("axis", .intA 0)]
            .ok (start_name, end_name, axes_name, steps_name, s)
          else
            match starts, ends, axes, steps with
            | st0 :: _, en0 :: _, ax0 :: _, sp0 :: _ =>
              .ok (st0, en0, ax0, sp0, s)
            | _, _, _, _ => .error .indexErr
        if ¬squeezed_axes.isEmpty then do
          let (sliced_name, s) ← generate_unique_name (var_name ++ "_sliced") s
          let s := s.emit [sliced_name] "Slice"
            [var_name, start_name, end_name, axes_name, steps_name] []
          let (sq_name, s) ← emit_const
            (.list (squeezed_axes.map (fun a => PyValue.int (Int.ofNat a))))
            (some "squeezed_axes") s
          let (result, s) ←
            if ¬non_scalar_indices.isEmpty then
              generate_unique_name (var_name ++ "_squeezed") s
            else .ok (target, s)
          let s := s.emit [result] "Squeeze" [sliced_name, sq_name] []
          .ok (result, ([] : List (Nat × Int)), s)
        else do
          let (result, s) ←
            if ¬non_scalar_indices.isEmpty then
              generate_unique_name (var_name ++ "_sliced") s
            else .ok (target, s)
          let s := s.emit [result] "Slice"
            [var_name, start_name, end_name, axes_name, steps_name] []
          .ok (result, ([] : List (Nat × Int)), s)
      else
        .ok (var_name, scalar_indices, s)
    let gather_list := non_scalar_indices ++
      scalar_indices2.map (fun q => (q.1, GatherIdx.constG q.2))
    match (gather_list.map (fun q => q.1)).getLast? with
    | Option.none => .ok (result, s)
    | some last_axis => gatherLoop var_name target last_axis gather_list result s

lemma const_1d_spec {v : Int} {nm : Option String} {cc : List (Int × String)}
    {s : ConvState} {n : String} {cc' : List (Int × String)} {s' : ConvState}
    (h : const_1d v nm cc s = .ok (n, cc', s')) :
    AppendsOps s s' ["Constant"] := by
  simp only [const_1d] at h
  cases hf : cc.find? (fun p => p.1 = v) with
  | some p =>
    rw [hf] at h
    cases h
    exact AppendsOps_refl s _
  | none =>
    rw [hf] at h
    obtain ⟨⟨n2, s2⟩, hec, h⟩ := except_bind_ok h
    cases h
    exact (emit_const_spec hec).1

lemma translate_slice_component_const_spec {arg : Option SliceComp}
    {d : Option Int} {cc : List (Int × String)} {s : ConvState}
    {r : String × Option Int} {cc' : List (Int × String)} {s' : ConvState}
    (harg : ∀ nm, arg ≠ some (.dynC nm))
    (h : translate_slice_component arg d cc s = .ok (r, cc', s')) :
    AppendsOps s s' ["Constant"] := by
  cases arg with
  | none =>
    simp only [translate_slice_component] at h
    cases d with
    | none => exact absurd h (by simp)
    | some dv =>
      obtain ⟨⟨n2, cc2, s2⟩, hc, h⟩ := except_bind_ok h
      cases h
      exact const_1d_spec hc
  | some comp =>
    cases comp with
    | constC cst =>
      simp only [translate_slice_component] at h
      obtain ⟨⟨n2, cc2, s2⟩, hc, h⟩ := except_bind_ok h
      cases h
      exact const_1d_spec hc
    | dynC nm => exact absurd rfl (harg nm)

lemma translate_slice_const_spec {l u st : Option SliceComp}
    {cc : List (Int × String)} {s : ConvState} {r : String × String × String}
    {cc' : List (Int × String)} {s' : ConvState}
    (hl : ∀ nm, l ≠ some (.dynC nm)) (hu : ∀ nm, u ≠ some (.dynC nm))
    (hst : ∀ nm, st ≠ some (.dynC nm))
    (h : translate_slice l u st cc s = .ok (r, cc', s')) :
    AppendsOps s s' ["Constant"] := by
  simp only [translate_slice] at h
  obtain ⟨⟨⟨step_name, stepv⟩, cc1, s1⟩, hcomp, h⟩ := except_bind_ok h
  have h1 := translate_slice_component_const_spec hst hcomp
  cases stepv with
  | none =>
    obtain ⟨⟨⟨ln, lv⟩, cc2, s2⟩, hc2, h⟩ := except_bind_ok h
    obtain ⟨⟨⟨un, uv⟩, cc3, s3⟩, hc3, h⟩ := except_bind_ok h
    cases h
    exact AppendsOps_trans h1 (AppendsOps_trans
      (translate_slice_component_const_spec hl hc2)
      (translate_slice_component_const_spec hu hc3))
  | some stv =>
    dsimp only at h
    by_cases hpos : 0 < stv
    · rw [if_pos hpos] at h
      obtain ⟨⟨⟨ln, lv⟩, cc2, s2⟩, hc2, h⟩ := except_bind_ok h
      obtain ⟨⟨⟨un, uv⟩, cc3, s3⟩, hc3, h⟩ := except_bind_ok h
      cases h
      exact AppendsOps_trans h1 (AppendsOps_trans
        (translate_slice_component_const_spec hl hc2)
        (translate_slice_component_const_spec hu hc3))
    · rw [if_neg hpos] at h
      obtain ⟨⟨⟨ln, lv⟩, cc2, s2⟩, hc2, h⟩ := except_bind_ok h
      obtain ⟨⟨⟨un, uv⟩, cc3, s3⟩, hc3, h⟩ := except_bind_ok h
      cases h
      exact AppendsOps_trans h1 (AppendsOps_trans
        (translate_slice_component_const_spec hl hc2)
        (translate_slice_component_const_spec hu hc3))

/-- A slice work-list entry whose three components are all compile-time
constants. -/
def ConstEntry (e : Nat × (Option SliceComp × Option SliceComp × Option SliceComp)) :
    Prop :=
  (∀ nm, e.2.1 ≠ some (.dynC nm)) ∧ (∀ nm, e.2.2.1 ≠ some (.dynC nm)) ∧
    (∀ nm, e.2.2.2 ≠ some (.dynC nm))

lemma sliceLoop_const_spec :
    ∀ (entries : List (Nat × (Option SliceComp × Option SliceComp ×
        Option SliceComp)))
      (cc : List (Int × String)) (s : ConvState)
      (res : List String × List String × List String × List String)
      (cc' : List (Int × String)) (s' : ConvState),
      (∀ e ∈ entries, ConstEntry e) →
      sliceLoop entries cc s = .ok (res, cc', s') →
      AppendsOps s s' ["Constant"] ∧ res.1.length = entries.length := by
  intro entries
  induction entries with
  | nil =>
    intro cc s res cc' s' _ h
    simp only [sliceLoop] at h
    cases h
    exact ⟨AppendsOps_refl s _, rfl⟩
  | cons e rest ih =>
    intro cc s res cc' s' hconst h
    obtain ⟨axis, sl⟩ := e
    simp only [sliceLoop] at h
    obtain ⟨⟨axis_var, cc1, s1⟩, hc1, h⟩ := except_bind_ok h
    obtain ⟨⟨⟨l, u, st⟩, cc2, s2⟩, hts, h⟩ := except_bind_ok h
    obtain ⟨⟨⟨ls, us, axs, sts⟩, cc3, s3⟩, hrec, h⟩ := except_bind_ok h
    cases h
    have hce := hconst (axis, sl) (List.mem_cons_self _ _)
    obtain ⟨ha1, hrest⟩ := ih cc2 s2 (ls, us, axs, sts) cc3 s3
      (fun e he => hconst e (List.mem_cons_of_mem _ he)) hrec
    refine ⟨AppendsOps_trans (const_1d_spec hc1)
      (AppendsOps_trans
        (translate_slice_const_spec hce.1 hce.2.1 hce.2.2 hts) ha1), ?_⟩
    simp only [List.length_cons]
    simpa using hrest

lemma subscript_two_const_case (var_name : String) (t0 : Option String)
    (a b : Int) (s : ConvState) (res : String) (s' : ConvState)
    (h : translate_subscript_expr var_name t0 [.constI a, .constI b] s
      = .ok (res, s')) :
    ∃ (L1 : List IRStmt) (sliceStmt : IRStmt) (L2 : List IRStmt)
      (squeezeStmt : IRStmt),
      s'.current_fn.stmts = s.current_fn.stmts ++ L1 ++ [sliceStmt] ++ L2
        ++ [squeezeStmt]
      ∧ (∀ st ∈ L1, st.op = "Constant" ∨ st.op = "Concat")
      ∧ sliceStmt.op = "Slice"
      ∧ (∀ st ∈ L2, st.op = "Constant")
      ∧ squeezeStmt.op = "Squeeze"
      ∧ squeezeStmt.outputs = [res] := by
  simp only [translate_subscript_expr, List.enum, List.enumFrom,
    List.filterMap_cons, List.filterMap_nil] at h
  obtain ⟨⟨target, s1⟩, hgt, h⟩ := except_bind_ok h
  simp at h
  obtain ⟨⟨⟨starts, ends, axes, steps⟩, ccL, s2⟩, hsl, h⟩ := except_bind_ok h
  obtain ⟨hslApp, hslLen⟩ := sliceLoop_const_spec _ [] s1
    (starts, ends, axes, steps) ccL s2
    (by
      intro e he
      simp at he
      rcases he with hh | hh
      all_goals
        rw [hh]
        exact ⟨fun nm hc => SliceComp.noConfusion (Option.some.inj hc),
          fun nm hc => SliceComp.noConfusion (Option.some.inj hc),
          fun nm hc => SliceComp.noConfusion (Option.some.inj hc)⟩) hsl
  simp at hslLen
  rw [if_pos (by rw [hslLen]; norm_num)] at h
  obtain ⟨⟨sn1, s3⟩, hg1, h⟩ := except_bind_ok h
  obtain ⟨⟨en1, s4⟩, hg2, h⟩ := except_bind_ok h
  obtain ⟨⟨an1, s5⟩, hg3, h⟩ := except_bind_ok h
  obtain ⟨⟨pn1, s6⟩, hg4, h⟩ := except_bind_ok h
  obtain ⟨y1, hy1, h⟩ := except_bind_ok h
  cases hy1
  obtain ⟨⟨sliced_name, s7⟩, hg5, h⟩ := except_bind_ok h
  obtain ⟨⟨sq_name, s8⟩, hsq, h⟩ := except_bind_ok h
  obtain ⟨y2, hy2, h⟩ := except_bind_ok h
  cases hy2
  obtain ⟨y3, hy3, h⟩ := except_bind_ok h
  cases hy3
  simp at h
  obtain ⟨hres, hs3⟩ := h
  obtain ⟨_, hgtC⟩ := gen_framePres hgt
  obtain ⟨_, _, _, _, LS, hLS, hopsLS⟩ := hslApp
  obtain ⟨_, hg1C⟩ := gen_framePres hg1
  obtain ⟨_, hg2C⟩ := gen_framePres hg2
  obtain ⟨_, hg3C⟩ := gen_framePres hg3
  obtain ⟨_, hg4C⟩ := gen_framePres hg4
  obtain ⟨_, hg5C⟩ := gen_framePres hg5
  obtain ⟨hsqApp, t, hsqT⟩ := emit_const_spec hsq
  refine ⟨LS ++ [IRStmt.mk [sn1] "Concat" starts [("axis", .intA 0)],
      IRStmt.mk [en1] "Concat" ends [("axis", .intA 0)],
      IRStmt.mk [an1] "Concat" axes [("axis", .intA 0)],
      IRStmt.mk [pn1] "Concat" steps [("axis", .intA 0)]],
    IRStmt.mk [sliced_name] "Slice"
      [var_name, sn1, en1, an1, pn1] [],
    [IRStmt.mk [sq_name] "Constant" [] [("value", .tensorA t)]],
    IRStmt.mk [target] "Squeeze" [sliced_name, sq_name] [],
    ?_, ?_, rfl, ?_, rfl, ?_⟩
  · rw [← hs3]
    simp only [ConvState.emit, addStmt_stmts]
    rw [hsqT]
    simp only [ConvState.emit, addStmt_stmts, hg5C]
    simp only [ConvState.emit, addStmt_stmts, hg4C, hg3C, hg2C, hg1C]
    rw [hLS]
    rw [hgtC]
    simp [List.append_assoc]
  · intro st hst
    rcases List.mem_append.mp hst with hh | hh
    · left
      have := hopsLS st hh
      simpa using this
    · simp only [List.mem_cons, List.not_mem_nil, or_false] at hh
      rcases hh with h1 | h1 | h1 | h1
      · rw [h1]; right; rfl
      · rw [h1]; right; rfl
      · rw [h1]; right; rfl
      · rw [h1]; right; rfl
  · intro st hst
    rcases List.mem_singleton.mp hst with rfl
    rfl
  · rw [hres]
    rfl

lemma subscript_two_dyn_case (var_name : String) (t0 : Option String)
    (iv jv iname jname : String) (ki kj : DynamicKind)
    (s : ConvState) (res : String) (s' : ConvState)
    (hI : s.lookup iv = some (.dynamic iname ki))
    (hJ : s.lookup jv = some (.dynamic jname kj))
    (h : translate_subscript_expr var_name t0 [.dynI iv, .dynI jv] s
      = .ok (res, s')) :
    ∃ g1, s'.current_fn.stmts = s.current_fn.stmts
      ++ [IRStmt.mk [g1] "Gather" [var_name, iname] [("axis", .intA 0)],
          IRStmt.mk [res] "Gather" [g1, jname] [("axis", .intA 1)]] := by
  simp only [translate_subscript_expr, List.enum, List.enumFrom,
    List.filterMap_cons, List.filterMap_nil] at h
  obtain ⟨⟨target, s1⟩, hgt, h⟩ := except_bind_ok h
  simp at h
  obtain ⟨hgtF, hgtC⟩ := gen_framePres hgt
  have hI1 : s1.lookup iv = some (.dynamic iname ki) := by
    rw [lookup_congr hgtF.2.1 hgtF.2.2.1]
    exact hI
  simp only [gatherLoop, translateGatherIdx, py_var_to_onnx_var, hI1,
    to_onnx_var] at h
  simp [List.getLast?] at h
  obtain ⟨tr, htr, h⟩ := except_bind_ok h
  cases htr
  dsimp only at h
  rw [hI1] at h
  simp [List.getLast] at h
  obtain ⟨⟨g1n, sg2⟩, hgen2, h⟩ := except_bind_ok h
  injection hgen2 with h12
  injection h12 with ha hb
  subst ha; subst hb
  dsimp only at h
  obtain ⟨⟨g1, sA⟩, hgenA, h⟩ := except_bind_ok h
  dsimp only at h
  have hlA : (sA.emit [g1] "Gather" [var_name, iname]
      [("axis", AttrVal.intA 0)]).locals = s.locals := by
    simp [ConvState.emit, (gen_ok hgenA).2.2.2.2.1, hgtF.2.1]
  have hgA : (sA.emit [g1] "Gather" [var_name, iname]
      [("axis", AttrVal.intA 0)]).globals = s.globals := by
    simp [ConvState.emit, (gen_ok hgenA).2.2.2.2.2, hgtF.2.2.1]
  have hJ2 := lookup_congr hlA hgA jv
  rw [hJ] at hJ2
  rw [hJ2] at h
  simp only [gatherLoop, bind, Except.bind, Except.ok.injEq, Prod.mk.injEq] at h
  obtain ⟨hres, hstate⟩ := h
  refine ⟨g1, ?_⟩
  rw [← hstate, ← hres]
  have hcf : sA.current_fn = s.current_fn := by
    rw [(gen_ok hgenA).2.2.2.1, (gen_framePres hgt).2]
  simp [ConvState.emit, IRFunction.addStmt, hcf]
  cases hfn : s.current_fn with
  | mk n i o st => simp [IRFunction.addStmt, IRFunction.stmts, List.append_assoc]

/-- C6: Indexing with two compile-time integer constant specifiers, as in
`A[2, 3]`, lowers to exactly one `Slice` node followed by exactly one
`Squeeze` node writing the requested result, with only `Constant` and
`Concat` helper nodes around them and in particular no `Gather` node;
indexing with two non-constant (dynamic tensor-valued) specifiers, as in
`A[I, J]`, lowers to exactly two sequential single-axis `Gather` nodes
applied in specifier order (axis 0 then axis 1), the last writing the
requested result name. -/
theorem translate_subscript_expr_spec :
    (∀ (var_name : String) (t0 : Option String) (a b : Int)
        (s : ConvState) (res : String) (s2 : ConvState),
      translate_subscript_expr var_name t0 [.constI a, .constI b] s
          = .ok (res, s2) →
      ∃ (L1 : List IRStmt) (sliceStmt : IRStmt) (L2 : List IRStmt)
        (squeezeStmt : IRStmt),
        s2.current_fn.stmts = s.current_fn.stmts ++ L1 ++ [sliceStmt] ++ L2
          ++ [squeezeStmt]
        ∧ (∀ st ∈ L1, st.op = "Constant" ∨ st.op = "Concat")
        ∧ sliceStmt.op = "Slice"
        ∧ (∀ st ∈ L2, st.op = "Constant")
        ∧ squeezeStmt.op = "Squeeze"
        ∧ squeezeStmt.outputs = [res])
    ∧ (∀ (var_name : String) (t0 : Option String)
        (iv jv iname jname : String) (ki kj : DynamicKind)
        (s : ConvState) (res : String) (s2 : ConvState),
      s.lookup iv = some (.dynamic iname ki) →
      s.lookup jv = some (.dynamic jname kj) →
      translate_subscript_expr var_name t0 [.dynI iv, .dynI jv] s
          = .ok (res, s2) →
      ∃ g1, s2.current_fn.stmts = s.current_fn.stmts
        ++ [IRStmt.mk [g1] "Gather" [var_name, iname] [("axis", .intA 0)],
            IRStmt.mk [res] "Gather" [g1, jname] [("axis", .intA 1)]]) :=
  ⟨fun v t a b s r s2 h => subscript_two_const_case v t a b s r s2 h,
   fun v t iv jv iN jN ki kj s r s2 hI hJ h =>
     subscript_two_dyn_case v t iv jv iN jN ki kj s r s2 hI hJ h⟩

theorem translate_subscript_expr_spec_witness :
    (∃ (res : String) (s2 : ConvState),
      translate_subscript_expr "A" Option.none [.constI 2, .constI 3]
          ⟨[], .new "f", 0, [], [[]], []⟩ = .ok (res, s2)
      ∧ ∃ (L1 : List IRStmt) (sliceStmt : IRStmt) (L2 : List IRStmt)
          (squeezeStmt : IRStmt),
          s2.current_fn.stmts
              = (⟨[], .new "f", 0, [], [[]], []⟩
                  : ConvState).current_fn.stmts ++ L1 ++ [sliceStmt] ++ L2
                ++ [squeezeStmt]
          ∧ (∀ st ∈ L1, st.op = "Constant" ∨ st.op = "Concat")
          ∧ sliceStmt.op = "Slice"
          ∧ (∀ st ∈ L2, st.op = "Constant")
          ∧ squeezeStmt.op = "Squeeze"
          ∧ squeezeStmt.outputs = [res])
    ∧ (∃ (res : String) (s2 : ConvState),
      translate_subscript_expr "A" Option.none [.dynI "I", .dynI "J"]
          ⟨[], .new "f", 0, [],
            [[("I", .dynamic "i0" .Input), ("J", .dynamic "j0" .Input)]],
            []⟩ = .ok (res, s2)
      ∧ ∃ g1, s2.current_fn.stmts
          = (⟨[], .new "f", 0, [],
              [[("I", .dynamic "i0" .Input), ("J", .dynamic "j0" .Input)]],
              []⟩ : ConvState).current_fn.stmts
            ++ [IRStmt.mk [g1] "Gather" ["A", "i0"] [("axis", .intA 0)],
                IRStmt.mk [res] "Gather" [g1, "j0"] [("axis", .intA 1)]]) := by
  constructor
  · refine ⟨_, _, rfl, ?_⟩
    exact translate_subscript_expr_spec.1 "A" Option.none 2 3
      ⟨[], .new "f", 0, [], [[]], []⟩ _ _ rfl
  · refine ⟨_, _, rfl, ?_⟩
    exact translate_subscript_expr_spec.2 "A" Option.none "I" "J" "i0" "j0"
      .Input .Input
      ⟨[], .new "f", 0, [],
        [[("I", .dynamic "i0" .Input), ("J", .dynamic "j0" .Input)]], []⟩
      _ _ rfl rfl rfl

end OnnxScript
